import Mathlib

/-!
Verification development for the `prvhash` SAT-solving simulations
(`gradilac_sat.py` and `t642_sat.py`).  The two scripts share a bit-vector
arithmetic layer (ripple-carry adder, shift-and-add multiplier, bitwise
xor/and), a mixing-core step function instantiated once over machine
integers (`prvhash_core_calc`) and once over bit-vectors
(`prvhash_core_sat`), and an attack harness that schedules step calls and
equates symbolic output bits with concrete observations.

Machine integers of the scripts are embedded as `Nat` with explicit
masking (the scripts themselves mask with `& bmask`); bit-vectors are
little-endian `List Bool` (when every input is a constant, every autosat
bit-formula evaluates to a boolean, so the constant-input symbolic runs the
claims quantify over are exactly runs over `List Bool`).  The state width
`bits` is a configuration parameter in the scripts; here it is an explicit
argument, and the derived globals `bits2`, `bmask`, `rawbits5`, `rawbitsA`
are recomputed from it exactly as the scripts do.
-/

namespace PrvSat

/-- Modelled from the spec: `autosat.decode_number` (the solving backend's
decoder, not part of this repository) reassembles a little-endian integer
from the bits of a bit-vector, per spec section 4.1; on constant bits no
assignment lookup is involved. -/
def decode : List Bool → Nat
  | [] => 0
  | b :: bs => b.toNat + 2 * decode bs

/-- Embeds `inibits(inst, l, ini)`: bit `i` of the result is `(ini>>i)&1`
(which is exactly `Nat.testBit ini i`), for `i` in `range(l)`. -/
def inibits (l ini : Nat) : List Bool :=
  (List.range l).map (fun i => Nat.testBit ini i)

/-- Embeds `full_adder(a, b, carry_in)`: `r = a + b + carry_in`,
returning `(r & 1, (r & 2) >> 1)`. -/
def full_adder (a b carry_in : Bool) : Bool × Bool :=
  let r := a.toNat + b.toNat + carry_in.toNat
  (decide ((r &&& 1) = 1), decide (((r &&& 2) >>> 1) = 1))

/-- Embeds the loop body of `add`: walk `zip a b` threading the carry
(initially `False` in `add`), appending each sum bit. -/
def addC : List Bool → List Bool → Bool → List Bool
  | a_bit :: as, b_bit :: bs, carry =>
    let p := full_adder a_bit b_bit carry
    p.1 :: addC as bs p.2
  | _, _, _ => []

/-- Embeds `add(a, b)` (requires `len(a) == len(b)`). -/
def add (a b : List Bool) : List Bool := addC a b false

/-- Embeds `xor(a, b)`: elementwise `i ^ j`. -/
def xor (a b : List Bool) : List Bool :=
  List.zipWith (fun i j => Bool.xor i j) a b

/-- Embeds `and_(a, b)`: elementwise `i & j`. -/
def and_ (a b : List Bool) : List Bool :=
  List.zipWith (fun i j => i && j) a b

/-- Embeds `mul(a, b)` (requires `len(a) == len(b)`):
`result = [a[0] & bit for bit in b]`, then for `i` in `range(1, len(a))`:
`addend = [a[i] & bit for bit in b[:-i]]; result[i:] = add(result[i:], addend)`. -/
def mul (a b : List Bool) : List Bool :=
  (List.range' 1 (a.length - 1)).foldl
    (fun result i =>
      result.take i ++
        add (result.drop i)
          ((b.take (b.length - i)).map (fun bit => a.getD i false && bit)))
    (b.map (fun bit => a.getD 0 false && bit))

/-- Embeds the `rawbits5` accumulation loop (`bits2` iterations of
`rawbits5 <<= 2; rawbits5 |= 0x1`). -/
def rawbits5 : Nat → Nat
  | 0 => 0
  | n + 1 => (rawbits5 n <<< 2) ||| 0x1

/-- Embeds the `rawbitsA` accumulation loop (`bits2` iterations of
`rawbitsA <<= 2; rawbitsA |= 0x2`). -/
def rawbitsA : Nat → Nat
  | 0 => 0
  | n + 1 => (rawbitsA n <<< 2) ||| 0x2

/-- Embeds `prvhash_core_calc(seed, lcg, h)` over machine integers, with
the script globals `bits2 = bits >> 1`, `bmask = (1 << bits) - 1`,
`rawbitsA`, `rawbits5` recomputed from the width argument. -/
def prvhash_core_calc (bits : Nat) (seed lcg h : Nat) : Nat × Nat × Nat × Nat :=
  let bits2 := bits >>> 1
  let bmask := (1 <<< bits) - 1
  let seed := (seed * (lcg * 2 + 1)) &&& bmask
  let rs := ((seed >>> bits2) ||| (seed <<< bits2)) &&& bmask
  let h := (h + (rs + rawbitsA bits2)) &&& bmask
  let lcg := (lcg + (seed + rawbits5 bits2)) &&& bmask
  let seed := seed ^^^ h
  let out := lcg ^^^ rs
  (seed, lcg, h, out)

/-- Embeds `prvhash_core_sat(seed, lcg, h)` over bit-vectors; `BITR5` and
`BITRA` are the constant bit-vectors built by the scripts via
`inibits(inst, bits, rawbits5)` / `inibits(inst, bits, rawbitsA)`. -/
def prvhash_core_sat (bits : Nat) (BITR5 BITRA : List Bool)
    (seed lcg h : List Bool) : List Bool × List Bool × List Bool × List Bool :=
  let bits2 := bits >>> 1
  let seed := mul seed (true :: lcg.dropLast)
  let rs := seed.drop bits2 ++ seed.take bits2
  let h := add h (add rs BITRA)
  let lcg := add lcg (add seed BITR5)
  let seed := xor seed h
  let out := xor lcg rs
  (seed, lcg, h, out)

/-! ### Basic facts about `decode` -/

theorem decode_lt (l : List Bool) : decode l < 2 ^ l.length := by
  induction l with
  | nil => simp [decode]
  | cons b bs ih =>
    have hb := Bool.toNat_lt b
    simp only [decode, List.length_cons, pow_succ]
    omega

theorem decode_testBit (l : List Bool) (i : Nat) :
    (decode l).testBit i = l.getD i false := by
  induction l generalizing i with
  | nil => simp [decode, Nat.zero_testBit]
  | cons b bs ih =>
    cases i with
    | zero =>
      simp only [decode, Nat.testBit_zero, List.getD_cons_zero]
      cases b <;> simp
    | succ j =>
      have hdiv : (b.toNat + 2 * decode bs) / 2 = decode bs := by
        rw [Nat.add_mul_div_left b.toNat (decode bs) (by norm_num : (0:Nat) < 2)]
        cases b <;> simp
      simp only [decode, Nat.testBit_succ, hdiv, List.getD_cons_succ, ih]

theorem decode_append (xs ys : List Bool) :
    decode (xs ++ ys) = decode xs + 2 ^ xs.length * decode ys := by
  induction xs with
  | nil => simp [decode]
  | cons b bs ih =>
    show decode (b :: (bs ++ ys)) = _
    simp only [decode, ih, List.length_cons, pow_succ]
    ring

theorem decode_take (l : List Bool) (k : Nat) :
    decode (l.take k) = decode l % 2 ^ k := by
  rcases le_or_lt k l.length with h | h
  · have hsplit := decode_append (l.take k) (l.drop k)
    rw [List.take_append_drop] at hsplit
    have hlen : (l.take k).length = k := by simp [h]
    rw [hsplit, hlen, Nat.add_mul_mod_self_left,
      Nat.mod_eq_of_lt (by simpa [hlen] using decode_lt (l.take k))]
  · rw [List.take_of_length_le (le_of_lt h),
      Nat.mod_eq_of_lt (lt_of_lt_of_le (decode_lt l) (Nat.pow_le_pow_right (by norm_num) (le_of_lt h)))]

theorem decode_drop (l : List Bool) (k : Nat) :
    decode (l.drop k) = decode l / 2 ^ k := by
  rcases le_or_lt k l.length with h | h
  · have hsplit := decode_append (l.take k) (l.drop k)
    rw [List.take_append_drop] at hsplit
    have hlen : (l.take k).length = k := by simp [h]
    rw [hlen] at hsplit
    rw [hsplit, Nat.add_mul_div_left _ _ (Nat.pos_pow_of_pos k (by norm_num)),
      Nat.div_eq_of_lt (by simpa [hlen] using decode_lt (l.take k)), Nat.zero_add]
  · rw [List.drop_of_length_le (le_of_lt h),
      Nat.div_eq_of_lt (lt_of_lt_of_le (decode_lt l) (Nat.pow_le_pow_right (by norm_num) (le_of_lt h)))]
    rfl

theorem inibits_length (l n : Nat) : (inibits l n).length = l := by
  simp [inibits]

theorem inibits_getD (l n i : Nat) :
    (inibits l n).getD i false = (decide (i < l) && n.testBit i) := by
  rcases lt_or_le i l with h | h
  · simp [inibits, List.getD_eq_getElem?_getD, List.getElem?_map, List.getElem?_range h, h]
  · have : ((List.range l).map (fun i => Nat.testBit n i))[i]? = none := by
      rw [List.getElem?_eq_none]
      simpa using h
    simp [inibits, List.getD_eq_getElem?_getD, this, Nat.not_lt.2 h]

theorem decode_inibits (l n : Nat) : decode (inibits l n) = n % 2 ^ l := by
  apply Nat.eq_of_testBit_eq
  intro i
  rw [decode_testBit, inibits_getD, Nat.testBit_mod_two_pow]

theorem decode_eq_self_of_lt {l n : Nat} (h : n < 2 ^ l) :
    decode (inibits l n) = n := by
  rw [decode_inibits, Nat.mod_eq_of_lt h]

/-! ### Correctness of the bitwise operations -/

theorem xor_getD (a b : List Bool) (h : a.length = b.length) (i : Nat) :
    (xor a b).getD i false = Bool.xor (a.getD i false) (b.getD i false) := by
  induction a generalizing b i with
  | nil =>
    cases b with
    | nil => simp [xor]
    | cons y ys => simp at h
  | cons x xs ih =>
    cases b with
    | nil => simp at h
    | cons y ys =>
      cases i with
      | zero => simp [xor, List.zipWith_cons_cons]
      | succ j =>
        simp only [xor, List.zipWith_cons_cons, List.getD_cons_succ]
        exact ih ys (by simpa using h) j

theorem xor_length (a b : List Bool) : (xor a b).length = min a.length b.length := by
  simp [xor]

theorem decode_xor (a b : List Bool) (h : a.length = b.length) :
    decode (xor a b) = decode a ^^^ decode b := by
  apply Nat.eq_of_testBit_eq
  intro i
  rw [decode_testBit, Nat.testBit_xor, decode_testBit, decode_testBit, xor_getD a b h]

theorem full_adder_toNat (a b c : Bool) :
    (full_adder a b c).1.toNat + 2 * (full_adder a b c).2.toNat =
      a.toNat + b.toNat + c.toNat := by
  cases a <;> cases b <;> cases c <;> decide

theorem mod_pow_split (i m low Y : Nat) (h : low < 2 ^ i) :
    (low + 2 ^ i * Y) % 2 ^ (i + m) = low + 2 ^ i * (Y % 2 ^ m) := by
  have hY := Nat.div_add_mod Y (2 ^ m)
  have hrw : low + 2 ^ i * Y = low + 2 ^ i * (Y % 2 ^ m) + 2 ^ (i + m) * (Y / 2 ^ m) := by
    rw [pow_add]
    nlinarith [hY]
  rw [hrw, Nat.add_mul_mod_self_left, Nat.mod_eq_of_lt]
  have hmod : Y % 2 ^ m < 2 ^ m := Nat.mod_lt _ (Nat.pos_pow_of_pos m (by norm_num))
  calc low + 2 ^ i * (Y % 2 ^ m) < 2 ^ i + 2 ^ i * (Y % 2 ^ m) := by omega
    _ = 2 ^ i * (Y % 2 ^ m + 1) := by ring
    _ ≤ 2 ^ i * 2 ^ m := Nat.mul_le_mul_left _ (by omega)
    _ = 2 ^ (i + m) := (pow_add 2 i m).symm

theorem addC_length (a b : List Bool) (c : Bool) :
    (addC a b c).length = min a.length b.length := by
  induction a generalizing b c with
  | nil => cases b <;> simp [addC]
  | cons x xs ih =>
    cases b with
    | nil => simp [addC]
    | cons y ys => simp [addC, ih]; omega

theorem decode_addC (a b : List Bool) (c : Bool) (h : a.length = b.length) :
    decode (addC a b c) = (decode a + decode b + c.toNat) % 2 ^ a.length := by
  induction a generalizing b c with
  | nil =>
    cases b with
    | nil =>
      have hc := Bool.toNat_lt c
      simp [addC, decode]
      omega
    | cons y ys => simp at h
  | cons x xs ih =>
    cases b with
    | nil => simp at h
    | cons y ys =>
      have hlen : xs.length = ys.length := by simpa using h
      have hfa := full_adder_toNat x y c
      set s := (full_adder x y c).1 with hs
      set c' := (full_adder x y c).2 with hc'
      have hslt := Bool.toNat_lt s
      show decode (s :: addC xs ys c') = _
      simp only [decode, ih ys c' hlen, List.length_cons]
      have hsplit := mod_pow_split 1 xs.length s.toNat
        (decode xs + decode ys + c'.toNat) (by omega)
      have h1 : (1 : Nat) + xs.length = xs.length + 1 := by omega
      rw [h1] at hsplit
      simp only [pow_one] at hsplit
      rw [← hsplit]
      congr 1
      have hx := Bool.toNat_lt x
      have hy := Bool.toNat_lt y
      have hc := Bool.toNat_lt c
      omega

theorem add_length (a b : List Bool) : (add a b).length = min a.length b.length :=
  addC_length a b false

theorem decode_add (a b : List Bool) (h : a.length = b.length) :
    decode (add a b) = (decode a + decode b) % 2 ^ a.length := by
  have := decode_addC a b false h
  simpa [add] using this

/-! ### Correctness of the shift-and-add multiplier -/

theorem decode_map_and (c : Bool) (l : List Bool) :
    decode (l.map (fun bit => c && bit)) = c.toNat * decode l := by
  induction l with
  | nil => simp [decode]
  | cons x xs ih =>
    simp only [List.map_cons, decode, ih]
    cases c <;> simp

theorem toNat_testBit_eq (x i : Nat) : (x.testBit i).toNat = x / 2 ^ i % 2 := by
  rw [Nat.testBit_to_div_mod]
  rcases Nat.mod_two_eq_zero_or_one (x / 2 ^ i) with h' | h' <;> simp [h']

theorem mod_two_pow_succ (x i : Nat) :
    x % 2 ^ (i + 1) = x % 2 ^ i + 2 ^ i * (x.testBit i).toNat := by
  rw [pow_succ, Nat.mod_mul, toNat_testBit_eq]

/-- The body of `mul`'s accumulation loop, split out so the fold invariant
can name it. -/
def mulF (a b : List Bool) : List Bool → Nat → List Bool :=
  fun result i =>
    result.take i ++
      add (result.drop i)
        ((b.take (b.length - i)).map (fun bit => a.getD i false && bit))

theorem mul_eq_foldl (a b : List Bool) :
    mul a b = (List.range' 1 (a.length - 1)).foldl (mulF a b)
      (b.map (fun bit => a.getD 0 false && bit)) := rfl

theorem mulF_length (a b r : List Bool) (i : Nat)
    (hr : r.length = a.length) (hab : a.length = b.length) (hi : i ≤ a.length) :
    (mulF a b r i).length = a.length := by
  simp only [mulF, List.length_append, List.length_take, add_length,
    List.length_drop, List.length_map, hr, ← hab]
  omega

theorem mul_fold_length (a b : List Bool) (hab : a.length = b.length) (k : Nat)
    (hk : k ≤ a.length) :
    ((List.range' 1 k).foldl (mulF a b)
      (b.map (fun bit => a.getD 0 false && bit))).length = a.length := by
  induction k with
  | zero => simp [← hab]
  | succ k ih =>
    rw [List.range'_1_concat, List.foldl_append, List.foldl_cons, List.foldl_nil]
    exact mulF_length a b _ _ (ih (by omega)) hab (by omega)

theorem mul_fold_decode (a b : List Bool) (hab : a.length = b.length)
    (h0 : 0 < a.length) (k : Nat) (hk : k < a.length) :
    decode ((List.range' 1 k).foldl (mulF a b)
      (b.map (fun bit => a.getD 0 false && bit))) =
    decode (a.take (k + 1)) * decode b % 2 ^ a.length := by
  induction k with
  | zero =>
    rw [List.range'_zero, List.foldl_nil, decode_map_and]
    cases a with
    | nil => simp at h0
    | cons x xs =>
      have hxB : (x.toNat * decode b) < 2 ^ (xs.length + 1) := by
        have hBlt : decode b < 2 ^ b.length := decode_lt b
        rw [← hab] at hBlt
        simp only [List.length_cons] at hBlt
        cases x with
        | false => simp
        | true => simpa using hBlt
      simp [decode, Nat.mod_eq_of_lt hxB]
  | succ k ih =>
    have hk' : k < a.length := by omega
    have hdec := ih hk'
    rw [List.range'_1_concat, List.foldl_append, List.foldl_cons, List.foldl_nil]
    set r := (List.range' 1 k).foldl (mulF a b)
      (b.map (fun bit => a.getD 0 false && bit)) with hr
    have hrlen : r.length = a.length := mul_fold_length a b hab k (by omega)
    set n := a.length with hn
    set i := 1 + k with hi
    have hin : i ≤ n := by omega
    set B := decode b with hB
    set ai := (a.getD i false).toNat with hai
    set R := decode r with hR
    -- decode of the appended pieces
    have htklen : (r.take i).length = i := by
      rw [List.length_take]; omega
    have hdrlen : (r.drop i).length = n - i := by
      rw [List.length_drop, hrlen]
    have haddlen : ((b.take (b.length - i)).map
        (fun bit => a.getD i false && bit)).length = n - i := by
      rw [List.length_map, List.length_take, ← hab]; omega
    have hdadd : decode (add (r.drop i)
        ((b.take (b.length - i)).map (fun bit => a.getD i false && bit))) =
        (R / 2 ^ i + ai * (B % 2 ^ (n - i))) % 2 ^ (n - i) := by
      rw [decode_add _ _ (by rw [hdrlen, haddlen]), hdrlen, decode_drop,
        decode_map_and, decode_take, ← hab]
    have hmodeq : (R / 2 ^ i + ai * (B % 2 ^ (n - i))) % 2 ^ (n - i) =
        (R / 2 ^ i + ai * B) % 2 ^ (n - i) :=
      Nat.ModEq.add_left (R / 2 ^ i) ((Nat.mod_modEq B (2 ^ (n - i))).mul_left ai)
    have hlow : R % 2 ^ i < 2 ^ i := Nat.mod_lt R (Nat.pos_pow_of_pos i (by norm_num))
    have hsplit := mod_pow_split i (n - i) (R % 2 ^ i) (R / 2 ^ i + ai * B) hlow
    have him : i + (n - i) = n := by omega
    rw [him] at hsplit
    have hstep : decode (mulF a b r i) = (R + 2 ^ i * (ai * B)) % 2 ^ n := by
      rw [mulF, decode_append, htklen, hdadd, hmodeq, decode_take, ← hsplit]
      congr 1
      have hdm := Nat.div_add_mod R (2 ^ i)
      ring_nf
      ring_nf at hdm
      nlinarith [hdm]
    rw [hstep, hdec]
    -- fold the partial product into the take of one more bit
    have htake : decode (a.take (i + 1)) = decode (a.take i) + 2 ^ i * ai := by
      rw [decode_take, decode_take, mod_two_pow_succ, decode_testBit]
    have : (decode (a.take i) * B % 2 ^ n + 2 ^ i * (ai * B)) % 2 ^ n =
        (decode (a.take i) * B + 2 ^ i * (ai * B)) % 2 ^ n :=
      Nat.ModEq.add_right _ (Nat.mod_modEq _ _)
    rw [hi] at *
    rw [show 1 + k = k + 1 from by omega] at *
    rw [this, htake]
    congr 1
    ring

theorem mul_length (a b : List Bool) (hab : a.length = b.length) :
    (mul a b).length = a.length := by
  rw [mul_eq_foldl]
  exact mul_fold_length a b hab _ (by omega)

theorem decode_mul (a b : List Bool) (hab : a.length = b.length) :
    decode (mul a b) = decode a * decode b % 2 ^ a.length := by
  cases a with
  | nil =>
    cases b with
    | nil => simp [mul, decode]
    | cons y ys => simp at hab
  | cons x xs =>
    rw [mul_eq_foldl]
    have h := mul_fold_decode (x :: xs) b hab (by simp)
      ((x :: xs).length - 1) (by simp)
    rw [show (x :: xs).length - 1 + 1 = (x :: xs).length from by simp] at h
    rw [List.take_of_length_le (le_refl _)] at h
    exact h

/-! ### Arithmetic facts about bit operations on `Nat` -/

theorem testBit_low_high (k low hi i : Nat) (h : low < 2 ^ k) :
    (low + 2 ^ k * hi).testBit i =
      if i < k then low.testBit i else hi.testBit (i - k) := by
  rcases lt_or_le i k with hik | hik
  · have h1 : (2:Nat) * 2 ^ (k - i - 1) = 2 ^ (k - i) := by
      rw [← pow_succ']
      congr 1
      omega
    have hexp : (2:Nat) ^ i * (2 * 2 ^ (k - i - 1)) = 2 ^ k := by
      rw [h1, ← pow_add]
      congr 1
      omega
    have hd : (low + 2 ^ k * hi) / 2 ^ i = low / 2 ^ i + 2 * (2 ^ (k - i - 1) * hi) := by
      have hk : 2 ^ k * hi = 2 ^ i * (2 * (2 ^ (k - i - 1) * hi)) := by
        rw [← hexp]
        ring
      rw [hk, Nat.add_mul_div_left _ _ (Nat.pos_pow_of_pos i (by norm_num))]
    simp only [Nat.testBit_to_div_mod, hd, Nat.add_mul_mod_self_left, if_pos hik]
  · have hd : (low + 2 ^ k * hi) / 2 ^ i = hi / 2 ^ (i - k) := by
      have hik' : 2 ^ i = 2 ^ k * 2 ^ (i - k) := by
        rw [← pow_add]
        congr 1
        omega
      rw [hik', ← Nat.div_div_eq_div_mul]
      have hk : (low + 2 ^ k * hi) / 2 ^ k = hi := by
        rw [mul_comm (2 ^ k) hi,
          Nat.add_mul_div_right _ _ (Nat.pos_pow_of_pos k (by norm_num)),
          Nat.div_eq_of_lt h, Nat.zero_add]
      rw [hk]
    simp only [Nat.testBit_to_div_mod, hd, if_neg (Nat.not_lt.2 hik)]

/-- For a value below the full width, the script's barrel rotation
`(seed >> bits2 | seed << bits2) & bmask` is the arithmetic half-word
swap `seed / 2^bits2 + 2^bits2 * (seed mod 2^bits2)`. -/
theorem rot_or_eq (b2 S : Nat) (hS : S < 2 ^ (2 * b2)) :
    ((S >>> b2) ||| (S <<< b2)) &&& (2 ^ (2 * b2) - 1) =
      S / 2 ^ b2 + 2 ^ b2 * (S % 2 ^ b2) := by
  have hdivlt : S / 2 ^ b2 < 2 ^ b2 := by
    apply Nat.div_lt_of_lt_mul
    rw [← pow_add]
    have : b2 + b2 = 2 * b2 := by omega
    rw [this]
    exact hS
  apply Nat.eq_of_testBit_eq
  intro i
  rw [Nat.and_pow_two_sub_one_eq_mod, Nat.testBit_mod_two_pow, Nat.testBit_or,
    Nat.testBit_shiftRight, Nat.testBit_shiftLeft,
    testBit_low_high b2 (S / 2 ^ b2) (S % 2 ^ b2) i hdivlt]
  rcases lt_or_le i b2 with hi | hi
  · have h1 : ¬ (i ≥ b2) := by omega
    have h2 : i < 2 * b2 := by omega
    have h3 : (S / 2 ^ b2).testBit i = S.testBit (b2 + i) := by
      rw [← Nat.shiftRight_eq_div_pow, Nat.testBit_shiftRight]
    simp [h1, h2, hi, h3]
  · rcases lt_or_le i (2 * b2) with h2 | h2
    · have h3 : S.testBit (b2 + i) = false :=
        Nat.testBit_lt_two_pow (lt_of_lt_of_le hS (Nat.pow_le_pow_right (by norm_num) (by omega)))
      have h4 : (S % 2 ^ b2).testBit (i - b2) = S.testBit (i - b2) := by
        rw [Nat.testBit_mod_two_pow]
        simp [show i - b2 < b2 from by omega]
      simp [h2, h3, h4, hi, Nat.not_lt.2 hi]
    · have h4 : (S % 2 ^ b2).testBit (i - b2) = false := by
        rw [Nat.testBit_mod_two_pow]
        simp [Nat.not_lt.2 (show b2 ≤ i - b2 from by omega)]
      simp [Nat.not_lt.2 h2, if_neg (Nat.not_lt.2 (show b2 ≤ i from by omega)), h4]

/-! ### The round constants -/

theorem rawbits5_succ (n : Nat) : rawbits5 (n + 1) = 4 * rawbits5 n + 1 := by
  rw [rawbits5, Nat.shiftLeft_eq]
  apply Nat.eq_of_testBit_eq
  intro i
  have h41 : 4 * rawbits5 n + 1 = 1 + 2 ^ 2 * rawbits5 n := by ring
  rw [Nat.testBit_or, h41, testBit_low_high 2 1 (rawbits5 n) i (by norm_num)]
  have hsh : rawbits5 n * 2 ^ 2 = rawbits5 n <<< 2 := (Nat.shiftLeft_eq _ _).symm
  rw [hsh, Nat.testBit_shiftLeft]
  match i with
  | 0 => simp
  | 1 => simp
  | (j + 2) => simp [Nat.testBit_succ]

theorem rawbitsA_succ (n : Nat) : rawbitsA (n + 1) = 4 * rawbitsA n + 2 := by
  rw [rawbitsA, Nat.shiftLeft_eq]
  apply Nat.eq_of_testBit_eq
  intro i
  have h42 : 4 * rawbitsA n + 2 = 2 + 2 ^ 2 * rawbitsA n := by ring
  rw [Nat.testBit_or, h42, testBit_low_high 2 2 (rawbitsA n) i (by norm_num)]
  have hsh : rawbitsA n * 2 ^ 2 = rawbitsA n <<< 2 := (Nat.shiftLeft_eq _ _).symm
  rw [hsh, Nat.testBit_shiftLeft]
  match i with
  | 0 => simp
  | 1 => simp
  | (j + 2) => simp [Nat.testBit_succ]

theorem rawbits5_lt (n : Nat) : rawbits5 n < 2 ^ (2 * n) := by
  induction n with
  | zero => simp [rawbits5]
  | succ n ih =>
    rw [rawbits5_succ]
    have : 2 ^ (2 * (n + 1)) = 4 * 2 ^ (2 * n) := by
      rw [show 2 * (n + 1) = 2 * n + 2 from by omega, pow_add]
      ring
    omega

theorem rawbitsA_lt (n : Nat) : rawbitsA n < 2 ^ (2 * n) := by
  induction n with
  | zero => simp [rawbitsA]
  | succ n ih =>
    rw [rawbitsA_succ]
    have : 2 ^ (2 * (n + 1)) = 4 * 2 ^ (2 * n) := by
      rw [show 2 * (n + 1) = 2 * n + 2 from by omega, pow_add]
      ring
    omega

/-! ### Single-step mirror between the symbolic and the concrete core

Each intermediate value of the two step functions is named, so that the
mirror can be proved component by component. -/

def calcSeed1 (bits seed lcg : Nat) : Nat :=
  (seed * (lcg * 2 + 1)) &&& ((1 <<< bits) - 1)

def calcRs (bits seed lcg : Nat) : Nat :=
  ((calcSeed1 bits seed lcg >>> (bits >>> 1)) |||
    (calcSeed1 bits seed lcg <<< (bits >>> 1))) &&& ((1 <<< bits) - 1)

def calcH (bits seed lcg h : Nat) : Nat :=
  (h + (calcRs bits seed lcg + rawbitsA (bits >>> 1))) &&& ((1 <<< bits) - 1)

def calcLcg (bits seed lcg : Nat) : Nat :=
  (lcg + (calcSeed1 bits seed lcg + rawbits5 (bits >>> 1))) &&& ((1 <<< bits) - 1)

theorem prvhash_core_calc_eq (bits seed lcg h : Nat) :
    prvhash_core_calc bits seed lcg h =
      (calcSeed1 bits seed lcg ^^^ calcH bits seed lcg h,
       calcLcg bits seed lcg,
       calcH bits seed lcg h,
       calcLcg bits seed lcg ^^^ calcRs bits seed lcg) := rfl

def satM (seed lcg : List Bool) : List Bool :=
  mul seed (true :: lcg.dropLast)

def satRs (bits : Nat) (seed lcg : List Bool) : List Bool :=
  (satM seed lcg).drop (bits >>> 1) ++ (satM seed lcg).take (bits >>> 1)

def satH (bits : Nat) (BITRA : List Bool) (seed lcg h : List Bool) : List Bool :=
  add h (add (satRs bits seed lcg) BITRA)

def satLcg (BITR5 : List Bool) (seed lcg : List Bool) : List Bool :=
  add lcg (add (satM seed lcg) BITR5)

theorem prvhash_core_sat_eq (bits : Nat) (BITR5 BITRA seed lcg h : List Bool) :
    prvhash_core_sat bits BITR5 BITRA seed lcg h =
      (xor (satM seed lcg) (satH bits BITRA seed lcg h),
       satLcg BITR5 seed lcg,
       satH bits BITRA seed lcg h,
       xor (satLcg BITR5 seed lcg) (satRs bits seed lcg)) := rfl

theorem two_b2_shiftRight (b2 : Nat) : (2 * b2) >>> 1 = b2 := by
  rw [Nat.shiftRight_eq_div_pow, pow_one, Nat.mul_div_cancel_left _ (by norm_num : (0:Nat) < 2)]

theorem mask_eq_mod (w x : Nat) : x &&& ((1 <<< w) - 1) = x % 2 ^ w := by
  rw [Nat.one_shiftLeft, Nat.and_pow_two_sub_one_eq_mod]

theorem satM_length (b2 : Nat) (hb : 0 < b2) (ls ll : List Bool)
    (hs : ls.length = 2 * b2) (hl : ll.length = 2 * b2) :
    (satM ls ll).length = 2 * b2 := by
  rw [satM, mul_length, hs]
  simp only [List.length_cons, List.length_dropLast, hl]
  omega

theorem satM_decode (b2 : Nat) (hb : 0 < b2) (ls ll : List Bool)
    (hs : ls.length = 2 * b2) (hl : ll.length = 2 * b2) :
    decode (satM ls ll) = calcSeed1 (2 * b2) (decode ls) (decode ll) := by
  have hmlen : ls.length = (true :: ll.dropLast).length := by
    simp only [List.length_cons, List.length_dropLast, hl, hs]
    omega
  have hdl : decode (true :: ll.dropLast) = 1 + 2 * (decode ll % 2 ^ (2 * b2 - 1)) := by
    show (true).toNat + 2 * decode ll.dropLast = _
    rw [List.dropLast_eq_take, decode_take, hl]
    rfl
  have hmod : (decode ls * (1 + 2 * (decode ll % 2 ^ (2 * b2 - 1)))) % 2 ^ (2 * b2) =
      (decode ls * (decode ll * 2 + 1)) % 2 ^ (2 * b2) := by
    have h2w : (2 : Nat) * 2 ^ (2 * b2 - 1) = 2 ^ (2 * b2) := by
      rw [← pow_succ']
      congr 1
      omega
    have hinner : 2 * (decode ll % 2 ^ (2 * b2 - 1)) ≡ 2 * decode ll [MOD 2 ^ (2 * b2)] := by
      rw [← h2w]
      exact (Nat.mod_modEq (decode ll) _).mul_left' 2
    have : decode ls * (1 + 2 * (decode ll % 2 ^ (2 * b2 - 1))) ≡
        decode ls * (1 + 2 * decode ll) [MOD 2 ^ (2 * b2)] :=
      (hinner.add_left 1).mul_left (decode ls)
    have hcomm : decode ls * (1 + 2 * decode ll) = decode ls * (decode ll * 2 + 1) := by ring
    rw [← hcomm]
    exact this
  rw [satM, calcSeed1, mask_eq_mod, decode_mul ls _ hmlen, hdl, hs, hmod]

theorem satRs_length (b2 : Nat) (hb : 0 < b2) (ls ll : List Bool)
    (hs : ls.length = 2 * b2) (hl : ll.length = 2 * b2) :
    (satRs (2 * b2) ls ll).length = 2 * b2 := by
  have hm := satM_length b2 hb ls ll hs hl
  rw [satRs, List.length_append, List.length_drop, List.length_take, hm, two_b2_shiftRight]
  omega

theorem satRs_decode (b2 : Nat) (hb : 0 < b2) (ls ll : List Bool)
    (hs : ls.length = 2 * b2) (hl : ll.length = 2 * b2) :
    decode (satRs (2 * b2) ls ll) = calcRs (2 * b2) (decode ls) (decode ll) := by
  have hm := satM_length b2 hb ls ll hs hl
  have hmlt : decode (satM ls ll) < 2 ^ (2 * b2) := by
    have := decode_lt (satM ls ll)
    rwa [hm] at this
  have hrot : (decode (satM ls ll) >>> b2 ||| decode (satM ls ll) <<< b2) % 2 ^ (2 * b2) =
      decode (satM ls ll) / 2 ^ b2 + 2 ^ b2 * (decode (satM ls ll) % 2 ^ b2) := by
    rw [← Nat.and_pow_two_sub_one_eq_mod]
    exact rot_or_eq b2 _ hmlt
  rw [satRs, calcRs, ← satM_decode b2 hb ls ll hs hl, two_b2_shiftRight,
    decode_append, List.length_drop, hm, decode_drop, decode_take,
    mask_eq_mod, hrot, show 2 * b2 - b2 = b2 from by omega]

theorem satH_length (b2 : Nat) (hb : 0 < b2) (ls ll lh : List Bool)
    (hs : ls.length = 2 * b2) (hl : ll.length = 2 * b2) (hh : lh.length = 2 * b2) :
    (satH (2 * b2) (inibits (2 * b2) (rawbitsA b2)) ls ll lh).length = 2 * b2 := by
  have hrs := satRs_length b2 hb ls ll hs hl
  rw [satH, add_length, add_length, hrs, inibits_length, hh]
  omega

theorem satH_decode (b2 : Nat) (hb : 0 < b2) (ls ll lh : List Bool)
    (hs : ls.length = 2 * b2) (hl : ll.length = 2 * b2) (hh : lh.length = 2 * b2) :
    decode (satH (2 * b2) (inibits (2 * b2) (rawbitsA b2)) ls ll lh) =
      calcH (2 * b2) (decode ls) (decode ll) (decode lh) := by
  have hrs := satRs_length b2 hb ls ll hs hl
  have hinner : (satRs (2 * b2) ls ll).length = (inibits (2 * b2) (rawbitsA b2)).length := by
    rw [hrs, inibits_length]
  have houter : lh.length = (add (satRs (2 * b2) ls ll) (inibits (2 * b2) (rawbitsA b2))).length := by
    rw [add_length, hrs, inibits_length, hh]
    omega
  have hAdec : decode (inibits (2 * b2) (rawbitsA b2)) = rawbitsA b2 :=
    decode_eq_self_of_lt (rawbitsA_lt b2)
  rw [satH, calcH, decode_add _ _ houter, decode_add _ _ hinner, hAdec,
    satRs_decode b2 hb ls ll hs hl, hrs, hh, mask_eq_mod, two_b2_shiftRight]
  exact Nat.ModEq.add_left (decode lh)
    (Nat.mod_modEq (calcRs (2 * b2) (decode ls) (decode ll) + rawbitsA b2) _)

theorem satLcg_length (b2 : Nat) (hb : 0 < b2) (ls ll : List Bool)
    (hs : ls.length = 2 * b2) (hl : ll.length = 2 * b2) :
    (satLcg (inibits (2 * b2) (rawbits5 b2)) ls ll).length = 2 * b2 := by
  have hm := satM_length b2 hb ls ll hs hl
  rw [satLcg, add_length, add_length, hm, inibits_length, hl]
  omega

theorem satLcg_decode (b2 : Nat) (hb : 0 < b2) (ls ll : List Bool)
    (hs : ls.length = 2 * b2) (hl : ll.length = 2 * b2) :
    decode (satLcg (inibits (2 * b2) (rawbits5 b2)) ls ll) =
      calcLcg (2 * b2) (decode ls) (decode ll) := by
  have hm := satM_length b2 hb ls ll hs hl
  have hinner : (satM ls ll).length = (inibits (2 * b2) (rawbits5 b2)).length := by
    rw [hm, inibits_length]
  have houter : ll.length = (add (satM ls ll) (inibits (2 * b2) (rawbits5 b2))).length := by
    rw [add_length, hm, inibits_length, hl]
    omega
  have h5dec : decode (inibits (2 * b2) (rawbits5 b2)) = rawbits5 b2 :=
    decode_eq_self_of_lt (rawbits5_lt b2)
  rw [satLcg, calcLcg, decode_add _ _ houter, decode_add _ _ hinner, h5dec,
    satM_decode b2 hb ls ll hs hl, hm, hl, mask_eq_mod, two_b2_shiftRight]
  exact Nat.ModEq.add_left (decode ll)
    (Nat.mod_modEq (calcSeed1 (2 * b2) (decode ls) (decode ll) + rawbits5 b2) _)

/-- Decoder applied to all four components of a symbolic step result. -/
def decode4 (r : List Bool × List Bool × List Bool × List Bool) : Nat × Nat × Nat × Nat :=
  (decode r.1, decode r.2.1, decode r.2.2.1, decode r.2.2.2)

/-- All four components of a symbolic step result have width `n`. -/
def len4 (r : List Bool × List Bool × List Bool × List Bool) (n : Nat) : Prop :=
  r.1.length = n ∧ r.2.1.length = n ∧ r.2.2.1.length = n ∧ r.2.2.2.length = n

theorem prvhash_core_mirror (b2 : Nat) (hb : 0 < b2) (ls ll lh : List Bool)
    (hs : ls.length = 2 * b2) (hl : ll.length = 2 * b2) (hh : lh.length = 2 * b2) :
    decode4 (prvhash_core_sat (2 * b2) (inibits (2 * b2) (rawbits5 b2))
        (inibits (2 * b2) (rawbitsA b2)) ls ll lh) =
      prvhash_core_calc (2 * b2) (decode ls) (decode ll) (decode lh) ∧
    len4 (prvhash_core_sat (2 * b2) (inibits (2 * b2) (rawbits5 b2))
        (inibits (2 * b2) (rawbitsA b2)) ls ll lh) (2 * b2) := by
  have hm := satM_length b2 hb ls ll hs hl
  have hrs := satRs_length b2 hb ls ll hs hl
  have hH := satH_length b2 hb ls ll lh hs hl hh
  have hL := satLcg_length b2 hb ls ll hs hl
  rw [prvhash_core_sat_eq, prvhash_core_calc_eq]
  constructor
  · simp only [decode4, Prod.mk.injEq]
    refine ⟨?_, ?_, ?_, ?_⟩
    · rw [decode_xor _ _ (by rw [hm, hH]), satM_decode b2 hb ls ll hs hl,
        satH_decode b2 hb ls ll lh hs hl hh]
    · exact satLcg_decode b2 hb ls ll hs hl
    · exact satH_decode b2 hb ls ll lh hs hl hh
    · rw [decode_xor _ _ (by rw [hL, hrs]), satLcg_decode b2 hb ls ll hs hl,
        satRs_decode b2 hb ls ll hs hl]
  · simp only [len4]
    refine ⟨?_, hL, hH, ?_⟩
    · rw [xor_length, hm, hH]
      omega
    · rw [xor_length, hL, hrs]
      omega

/-! ### Multi-step runs over the hash array

The harness state: current `seed` and `lcg`, the hash array, and the
output word of the most recent step.  A call with counter value `x` uses
and updates array element `x % hc`, exactly as
`seed, lcg, h[x % hc], out = prvhash_core_*(seed, lcg, h[x % hc])`. -/

structure CalcState where
  seed : Nat
  lcg : Nat
  harr : List Nat
  out : Nat

structure SatState where
  seed : List Bool
  lcg : List Bool
  harr : List (List Bool)
  out : List Bool

def calc_step_arr (bits hc x : Nat) (st : CalcState) : CalcState :=
  let r := prvhash_core_calc bits st.seed st.lcg (st.harr.getD (x % hc) 0)
  ⟨r.1, r.2.1, st.harr.set (x % hc) r.2.2.1, r.2.2.2⟩

def sat_step_arr (bits hc : Nat) (BITR5 BITRA : List Bool) (x : Nat)
    (st : SatState) : SatState :=
  let r := prvhash_core_sat bits BITR5 BITRA st.seed st.lcg (st.harr.getD (x % hc) [])
  ⟨r.1, r.2.1, st.harr.set (x % hc) r.2.2.1, r.2.2.2⟩

/-- Run `n` harness calls; call number `t` (0-based) uses hash index `f t`. -/
def calc_run (bits hc : Nat) (f : Nat → Nat) (st : CalcState) : Nat → CalcState
  | 0 => st
  | n + 1 => calc_step_arr bits hc (f n) (calc_run bits hc f st n)

def sat_run (bits hc : Nat) (BITR5 BITRA : List Bool) (f : Nat → Nat)
    (st : SatState) : Nat → SatState
  | 0 => st
  | n + 1 => sat_step_arr bits hc BITR5 BITRA (f n) (sat_run bits hc BITR5 BITRA f st n)

/-- The concrete state is the decoding of the symbolic state. -/
def mirrors (c : CalcState) (s : SatState) : Prop :=
  c.seed = decode s.seed ∧ c.lcg = decode s.lcg ∧
    c.harr = s.harr.map decode ∧ c.out = decode s.out

/-- Well-formedness of the symbolic state: every stored word has the full width. -/
def satWF (bits : Nat) (s : SatState) : Prop :=
  s.seed.length = bits ∧ s.lcg.length = bits ∧ ∀ l ∈ s.harr, l.length = bits

theorem step_arr_mirror (b2 hc x : Nat) (hb : 0 < b2) (hhc : 0 < hc)
    (c : CalcState) (s : SatState) (hm : mirrors c s) (hwf : satWF (2 * b2) s)
    (hlen : s.harr.length = hc) :
    mirrors (calc_step_arr (2 * b2) hc x c)
      (sat_step_arr (2 * b2) hc (inibits (2 * b2) (rawbits5 b2))
        (inibits (2 * b2) (rawbitsA b2)) x s) ∧
    satWF (2 * b2)
      (sat_step_arr (2 * b2) hc (inibits (2 * b2) (rawbits5 b2))
        (inibits (2 * b2) (rawbitsA b2)) x s) ∧
    (sat_step_arr (2 * b2) hc (inibits (2 * b2) (rawbits5 b2))
        (inibits (2 * b2) (rawbitsA b2)) x s).harr.length = hc := by
  obtain ⟨hs1, hs2, hs3⟩ := hwf
  obtain ⟨hc1, hc2, hc3, _⟩ := hm
  have hi : x % hc < s.harr.length := by
    rw [hlen]
    exact Nat.mod_lt x hhc
  have hmem : s.harr.getD (x % hc) [] ∈ s.harr := by
    rw [List.getD_eq_getElem?_getD, List.getElem?_eq_getElem hi]
    exact List.getElem_mem _
  have he : (s.harr.getD (x % hc) []).length = 2 * b2 := hs3 _ hmem
  have hcd : c.harr.getD (x % hc) 0 = decode (s.harr.getD (x % hc) []) := by
    rw [hc3, show (0 : Nat) = decode [] from rfl, List.getD_map]
  obtain ⟨hdec, hlen4⟩ := prvhash_core_mirror b2 hb s.seed s.lcg
    (s.harr.getD (x % hc) []) hs1 hs2 he
  obtain ⟨hl1, hl2, hl3, hl4⟩ := hlen4
  have e1 := congrArg (fun p => p.1) hdec
  have e2 := congrArg (fun p => p.2.1) hdec
  have e3 := congrArg (fun p => p.2.2.1) hdec
  have e4 := congrArg (fun p => p.2.2.2) hdec
  simp only [decode4] at e1 e2 e3 e4
  refine ⟨⟨?_, ?_, ?_, ?_⟩, ⟨?_, ?_, ?_⟩, ?_⟩
  · simp only [calc_step_arr, sat_step_arr, hc1, hc2, hcd]
    exact e1.symm
  · simp only [calc_step_arr, sat_step_arr, hc1, hc2, hcd]
    exact e2.symm
  · simp only [calc_step_arr, sat_step_arr, hc1, hc2, hcd, List.map_set]
    rw [e3, hc3]
  · simp only [calc_step_arr, sat_step_arr, hc1, hc2, hcd]
    exact e4.symm
  · exact hl1
  · exact hl2
  · intro l hl
    simp only [sat_step_arr] at hl
    rcases List.mem_or_eq_of_mem_set hl with h | h
    · exact hs3 l h
    · rw [h]
      exact hl3
  · simp only [sat_step_arr, List.length_set]
    exact hlen

theorem run_mirror (b2 hc : Nat) (hb : 0 < b2) (hhc : 0 < hc) (f : Nat → Nat)
    (c : CalcState) (s : SatState) (hm : mirrors c s) (hwf : satWF (2 * b2) s)
    (hlen : s.harr.length = hc) (n : Nat) :
    mirrors (calc_run (2 * b2) hc f c n)
      (sat_run (2 * b2) hc (inibits (2 * b2) (rawbits5 b2))
        (inibits (2 * b2) (rawbitsA b2)) f s n) ∧
    satWF (2 * b2)
      (sat_run (2 * b2) hc (inibits (2 * b2) (rawbits5 b2))
        (inibits (2 * b2) (rawbitsA b2)) f s n) ∧
    (sat_run (2 * b2) hc (inibits (2 * b2) (rawbits5 b2))
        (inibits (2 * b2) (rawbitsA b2)) f s n).harr.length = hc := by
  induction n with
  | zero => exact ⟨hm, hwf, hlen⟩
  | succ n ih =>
    obtain ⟨ihm, ihwf, ihlen⟩ := ih
    exact step_arr_mirror b2 hc (f n) hb hhc _ _ ihm ihwf ihlen

/-! ### The round constants as the spec describes them, and the spec-side step -/

/-- Follows the spec's words: `ROUND_CONST_A` is the two-bit group `10`
replicated `w2` times (value `2` at each two-bit position). -/
def spec_ROUND_CONST_A (w2 : Nat) : Nat :=
  Finset.sum (Finset.range w2) (fun i => 2 * 4 ^ i)

/-- Follows the spec's words: `ROUND_CONST_B` is the two-bit group `01`
replicated `w2` times (value `1` at each two-bit position). -/
def spec_ROUND_CONST_B (w2 : Nat) : Nat :=
  Finset.sum (Finset.range w2) (fun i => 4 ^ i)

/-- Follows the spec's words: `rotate_halves` swaps the low and high
half-words (a barrel rotation by half the width). -/
def spec_rotate_halves (w2 s : Nat) : Nat :=
  s / 2 ^ w2 + 2 ^ w2 * (s % 2 ^ w2)

theorem rawbitsA_eq_spec (n : Nat) : rawbitsA n = spec_ROUND_CONST_A n := by
  induction n with
  | zero => simp [rawbitsA, spec_ROUND_CONST_A]
  | succ n ih =>
    simp only [spec_ROUND_CONST_A]
    rw [rawbitsA_succ, ih, spec_ROUND_CONST_A, Finset.sum_range_succ', Finset.mul_sum]
    have hpt : ∀ i ∈ Finset.range n, (2:Nat) * 4 ^ (i + 1) = 4 * (2 * 4 ^ i) := by
      intro i _
      ring
    rw [Finset.sum_congr rfl hpt]
    norm_num

theorem rawbits5_eq_spec (n : Nat) : rawbits5 n = spec_ROUND_CONST_B n := by
  induction n with
  | zero => simp [rawbits5, spec_ROUND_CONST_B]
  | succ n ih =>
    simp only [spec_ROUND_CONST_B]
    rw [rawbits5_succ, ih, spec_ROUND_CONST_B, Finset.sum_range_succ', Finset.mul_sum]
    have hpt : ∀ i ∈ Finset.range n, (4:Nat) ^ (i + 1) = 4 * 4 ^ i := by
      intro i _
      ring
    rw [Finset.sum_congr rfl hpt]
    norm_num

/-- Follows the spec's words (section 4.3): one mixing-core step written
with modular arithmetic, the barrel rotation, and the spec's round
constants. -/
def spec_step (w2 seed lcg h : Nat) : Nat × Nat × Nat × Nat :=
  let s1 := seed * (2 * lcg + 1) % 2 ^ (2 * w2)
  let rot := spec_rotate_halves w2 s1
  let h1 := (h + rot + spec_ROUND_CONST_A w2) % 2 ^ (2 * w2)
  let l1 := (lcg + s1 + spec_ROUND_CONST_B w2) % 2 ^ (2 * w2)
  (s1 ^^^ h1, l1, h1, l1 ^^^ rot)

/-! ### Claim theorems C1 to C4 -/

/-- C1: Mirror property — for every even state width and every sequence of
step calls (any index schedule `f`, any number of calls `n`), running the
symbolic mixing-core step on bit-vectors built as constants of given
integers and running the concrete step on those same integers produce, at
every step, decoded `(seed, lcg, hash array, output)` values that are
identical. -/
theorem claim_C1_mirror (b2 hc : Nat) (hb : 0 < b2) (hhc : 0 < hc)
    (si li : Nat) (hvs : List Nat) (f : Nat → Nat) (n : Nat)
    (hsi : si < 2 ^ (2 * b2)) (hli : li < 2 ^ (2 * b2))
    (hhv : ∀ v ∈ hvs, v < 2 ^ (2 * b2)) (hlen : hvs.length = hc) :
    mirrors (calc_run (2 * b2) hc f ⟨si, li, hvs, 0⟩ n)
      (sat_run (2 * b2) hc (inibits (2 * b2) (rawbits5 b2))
        (inibits (2 * b2) (rawbitsA b2)) f
        ⟨inibits (2 * b2) si, inibits (2 * b2) li,
          hvs.map (inibits (2 * b2)), []⟩ n) := by
  refine (run_mirror b2 hc hb hhc f _ _ ?_ ?_ ?_ n).1
  · refine ⟨(decode_eq_self_of_lt hsi).symm, (decode_eq_self_of_lt hli).symm, ?_, rfl⟩
    show hvs = (hvs.map (inibits (2 * b2))).map decode
    rw [List.map_map]
    conv_lhs => rw [← List.map_id hvs]
    apply List.map_congr_left
    intro v hv
    exact (decode_eq_self_of_lt (hhv v hv)).symm
  · refine ⟨inibits_length _ _, inibits_length _ _, ?_⟩
    intro l hl
    obtain ⟨v, _, rfl⟩ := List.mem_map.1 hl
    exact inibits_length _ _
  · rw [List.length_map, hlen]

/-- Witness for C1: a concrete three-call run at width 2 with one hash
element. -/
theorem claim_C1_mirror_witness :
    mirrors (calc_run (2 * 1) 1 (fun t => t) ⟨1, 2, [3], 0⟩ 3)
      (sat_run (2 * 1) 1 (inibits (2 * 1) (rawbits5 1))
        (inibits (2 * 1) (rawbitsA 1)) (fun t => t)
        ⟨inibits (2 * 1) 1, inibits (2 * 1) 2, [3].map (inibits (2 * 1)), []⟩ 3) :=
  claim_C1_mirror 1 1 (by decide) (by decide) 1 2 [3] (fun t => t) 3
    (by decide) (by decide) (by decide) (by decide)

/-- C2: one concrete mixing-core step computes exactly the spec's formulas:
`seed' = seed*(2*lcg+1) mod 2^w`, the half-width barrel rotation, the
hash/lcg accumulations with the replicated two-bit round constants, the
final seed as `seed' xor hash_word'`, and `output = lcg' xor rotated`. -/
theorem claim_C2_step_formula (w2 seed lcg h : Nat) :
    prvhash_core_calc (2 * w2) seed lcg h = spec_step w2 seed lcg h := by
  have hS1 : calcSeed1 (2 * w2) seed lcg = seed * (2 * lcg + 1) % 2 ^ (2 * w2) := by
    rw [calcSeed1, mask_eq_mod]
    congr 1
    ring
  have hS1lt : calcSeed1 (2 * w2) seed lcg < 2 ^ (2 * w2) := by
    rw [hS1]
    exact Nat.mod_lt _ (Nat.pos_pow_of_pos _ (by norm_num))
  have hRs : calcRs (2 * w2) seed lcg =
      spec_rotate_halves w2 (seed * (2 * lcg + 1) % 2 ^ (2 * w2)) := by
    have hrot : (calcSeed1 (2 * w2) seed lcg >>> w2 |||
        calcSeed1 (2 * w2) seed lcg <<< w2) % 2 ^ (2 * w2) =
        calcSeed1 (2 * w2) seed lcg / 2 ^ w2 +
          2 ^ w2 * (calcSeed1 (2 * w2) seed lcg % 2 ^ w2) := by
      rw [← Nat.and_pow_two_sub_one_eq_mod]
      exact rot_or_eq w2 _ hS1lt
    rw [calcRs, two_b2_shiftRight, mask_eq_mod, hrot, spec_rotate_halves, hS1]
  have hH : calcH (2 * w2) seed lcg h =
      (h + spec_rotate_halves w2 (seed * (2 * lcg + 1) % 2 ^ (2 * w2)) +
        spec_ROUND_CONST_A w2) % 2 ^ (2 * w2) := by
    rw [calcH, mask_eq_mod, hRs, two_b2_shiftRight, rawbitsA_eq_spec]
    congr 1
    ring
  have hL : calcLcg (2 * w2) seed lcg =
      (lcg + seed * (2 * lcg + 1) % 2 ^ (2 * w2) +
        spec_ROUND_CONST_B w2) % 2 ^ (2 * w2) := by
    rw [calcLcg, mask_eq_mod, hS1, two_b2_shiftRight, rawbits5_eq_spec]
    congr 1
    ring
  rw [prvhash_core_calc_eq, spec_step, hS1, hRs, hH, hL]

/-- C3: adder correctness — for all `a, b < 2^w`,
`decode(add(constant(a), constant(b))) = (a + b) mod 2^w`, and the result
has the same width as the inputs (the carry out of the top bit is
discarded). -/
theorem claim_C3_adder (w a b : Nat) (ha : a < 2 ^ w) (hb : b < 2 ^ w) :
    decode (add (inibits w a) (inibits w b)) = (a + b) % 2 ^ w ∧
    (add (inibits w a) (inibits w b)).length = w := by
  have hlen : (inibits w a).length = (inibits w b).length := by
    rw [inibits_length, inibits_length]
  constructor
  · rw [decode_add _ _ hlen, decode_eq_self_of_lt ha, decode_eq_self_of_lt hb,
      inibits_length]
  · rw [add_length, inibits_length, inibits_length, Nat.min_self]

/-- Witness for C3 at width 4 with inputs 9 and 12. -/
theorem claim_C3_adder_witness :
    decode (add (inibits 4 9) (inibits 4 12)) = (9 + 12) % 2 ^ 4 ∧
    (add (inibits 4 9) (inibits 4 12)).length = 4 :=
  claim_C3_adder 4 9 12 (by decide) (by decide)

/-- C4: multiplier correctness — for all `a, b < 2^w`,
`decode(mul(constant(a), constant(b))) = (a * b) mod 2^w`: shift-and-add
multiplication truncated to the input width reproduces unsigned modular
multiplication. -/
theorem claim_C4_multiplier (w a b : Nat) (ha : a < 2 ^ w) (hb : b < 2 ^ w) :
    decode (mul (inibits w a) (inibits w b)) = (a * b) % 2 ^ w ∧
    (mul (inibits w a) (inibits w b)).length = w := by
  have hlen : (inibits w a).length = (inibits w b).length := by
    rw [inibits_length, inibits_length]
  constructor
  · rw [decode_mul _ _ hlen, decode_eq_self_of_lt ha, decode_eq_self_of_lt hb,
      inibits_length]
  · rw [mul_length _ _ hlen, inibits_length]

/-- Witness for C4 at width 6 with inputs 27 and 45. -/
theorem claim_C4_multiplier_witness :
    decode (mul (inibits 6 27) (inibits 6 45)) = (27 * 45) % 2 ^ 6 ∧
    (mul (inibits 6 27) (inibits 6 45)).length = 6 :=
  claim_C4_multiplier 6 27 45 (by decide) (by decide)

/-! ### The Variant A (gradilac) harness

The three loops of the concrete harness (lines 106-121 of
`gradilac_sat.py`); each loop additionally records, per call, the array
index `x % hc` that the call used, and the observation loop records the
observations `out1 ^ out2`. -/

/-- Embeds the initial hash array: `hcv[i] & bmask` for `i < hci`, `0`
for the remaining `hc - hci` elements. -/
def gradilac_init_h (bits hci hc : Nat) (hcv : List Nat) : List Nat :=
  (List.range hc).map (fun i =>
    if i < hci then hcv.getD i 0 &&& ((1 <<< bits) - 1) else 0)

/-- Embeds the initial concrete state
`calc_seed = seed_i & bmask; calc_lcg = lcg_i & bmask` with the hash
array. -/
def gradilac_st0 (bits hci hc seed_i lcg_i : Nat) (hcv : List Nat) : CalcState :=
  ⟨seed_i &&& ((1 <<< bits) - 1), lcg_i &&& ((1 <<< bits) - 1),
    gradilac_init_h bits hci hc hcv, 0⟩

/-- Embeds the first warm-up loop (`for i in range(5)`): `calc_x` is not
advanced.  Returns the final `(state, x)` and the trace of used indices. -/
def gradilac_loop1 (bits hc : Nat) (p : CalcState × Nat) :
    Nat → (CalcState × Nat) × List Nat
  | 0 => (p, [])
  | n + 1 =>
    let q := gradilac_loop1 bits hc p n
    ((calc_step_arr bits hc q.1.2 q.1.1, q.1.2), q.2 ++ [q.1.2 % hc])

/-- Embeds the second warm-up loop (`for i in range(hc+1)`): `calc_x`
advances by one after each call. -/
def gradilac_loop2 (bits hc : Nat) (p : CalcState × Nat) :
    Nat → (CalcState × Nat) × List Nat
  | 0 => (p, [])
  | n + 1 =>
    let q := gradilac_loop2 bits hc p n
    ((calc_step_arr bits hc q.1.2 q.1.1, q.1.2 + 1), q.2 ++ [q.1.2 % hc])

/-- Embeds the observation loop (`for i in range(num_obs)`): two calls per
round, `calc_x` advancing after each, and `obs.append(out1 ^ out2)`.
Returns `((state, x), trace, obs)`. -/
def gradilac_loop3 (bits hc : Nat) (p : CalcState × Nat) :
    Nat → (CalcState × Nat) × List Nat × List Nat
  | 0 => (p, [], [])
  | n + 1 =>
    let q := gradilac_loop3 bits hc p n
    let st1 := calc_step_arr bits hc q.1.2 q.1.1
    let st2 := calc_step_arr bits hc (q.1.2 + 1) st1
    ((st2, q.1.2 + 2), q.2.1 ++ [q.1.2 % hc, (q.1.2 + 1) % hc],
      q.2.2 ++ [st1.out ^^^ st2.out])

/-- The whole concrete Variant A harness: warm-up, fill, observation
rounds.  Returns the final `(state, x)`, the index trace of every call in
order, and the observation list. -/
def gradilac_run (bits hci hc num_obs seed_i lcg_i : Nat) (hcv : List Nat) :
    (CalcState × Nat) × List Nat × List Nat :=
  let p1 := gradilac_loop1 bits hc (gradilac_st0 bits hci hc seed_i lcg_i hcv, 0) 5
  let p2 := gradilac_loop2 bits hc p1.1 (hc + 1)
  let p3 := gradilac_loop3 bits hc p2.1 num_obs
  (p3.1, p1.2 ++ p2.2 ++ p3.2.1, p3.2.2)

/-- The observation list of the concrete Variant A harness. -/
def gradilac_calc_obs (bits hci hc num_obs seed_i lcg_i : Nat) (hcv : List Nat) : List Nat :=
  (gradilac_run bits hci hc num_obs seed_i lcg_i hcv).2.2

/-- The per-call hash-index trace of the concrete Variant A harness. -/
def gradilac_trace (bits hci hc num_obs seed_i lcg_i : Nat) (hcv : List Nat) : List Nat :=
  (gradilac_run bits hci hc num_obs seed_i lcg_i hcv).2.1

/-- The per-call index schedule realized by the Variant A harness: the
five warm-up calls use counter value 0, afterwards the counter advances by
one per call. -/
def gradilac_sched : Nat → Nat := fun t => if t < 5 then 0 else t - 5

/-! ### Characterizations of the harness loops in terms of `calc_run` -/

theorem calc_run_congr (bits hc : Nat) (f g : Nat → Nat) (st : CalcState) (n : Nat)
    (h : ∀ t, t < n → f t = g t) :
    calc_run bits hc f st n = calc_run bits hc g st n := by
  induction n with
  | zero => rfl
  | succ n ih =>
    show calc_step_arr bits hc (f n) _ = calc_step_arr bits hc (g n) _
    rw [h n (by omega), ih (fun t ht => h t (by omega))]

theorem calc_run_add (bits hc : Nat) (f : Nat → Nat) (st : CalcState) (m n : Nat) :
    calc_run bits hc f st (m + n) =
      calc_run bits hc (fun t => f (m + t)) (calc_run bits hc f st m) n := by
  induction n with
  | zero => rfl
  | succ n ih =>
    show calc_step_arr bits hc (f (m + n)) (calc_run bits hc f st (m + n)) = _
    rw [ih]
    rfl

theorem gradilac_loop1_eq (bits hc : Nat) (st : CalcState) (x n : Nat) :
    gradilac_loop1 bits hc (st, x) n =
      ((calc_run bits hc (fun _ => x) st n, x), List.replicate n (x % hc)) := by
  induction n with
  | zero => rfl
  | succ n ih =>
    show (let q := gradilac_loop1 bits hc (st, x) n
      ((calc_step_arr bits hc q.1.2 q.1.1, q.1.2), q.2 ++ [q.1.2 % hc])) = _
    rw [ih]
    simp [calc_run, List.replicate_succ']

theorem gradilac_loop2_eq (bits hc : Nat) (st : CalcState) (x n : Nat) :
    gradilac_loop2 bits hc (st, x) n =
      ((calc_run bits hc (fun t => x + t) st n, x + n),
        (List.range n).map (fun t => (x + t) % hc)) := by
  induction n with
  | zero => rfl
  | succ n ih =>
    show (let q := gradilac_loop2 bits hc (st, x) n
      ((calc_step_arr bits hc q.1.2 q.1.1, q.1.2 + 1), q.2 ++ [q.1.2 % hc])) = _
    rw [ih]
    simp only [List.range_succ, List.map_append, List.map_cons, List.map_nil]
    rfl

theorem gradilac_loop3_eq (bits hc : Nat) (st : CalcState) (x n : Nat) :
    gradilac_loop3 bits hc (st, x) n =
      ((calc_run bits hc (fun t => x + t) st (2 * n), x + 2 * n),
        (List.range (2 * n)).map (fun t => (x + t) % hc),
        (List.range n).map (fun k =>
          (calc_run bits hc (fun t => x + t) st (2 * k + 1)).out ^^^
          (calc_run bits hc (fun t => x + t) st (2 * k + 2)).out)) := by
  induction n with
  | zero => rfl
  | succ n ih =>
    show (let q := gradilac_loop3 bits hc (st, x) n
      ((calc_step_arr bits hc (q.1.2 + 1) (calc_step_arr bits hc q.1.2 q.1.1), q.1.2 + 2),
        q.2.1 ++ [q.1.2 % hc, (q.1.2 + 1) % hc],
        q.2.2 ++ [(calc_step_arr bits hc q.1.2 q.1.1).out ^^^
          (calc_step_arr bits hc (q.1.2 + 1) (calc_step_arr bits hc q.1.2 q.1.1)).out])) = _
    rw [ih]
    have h1 : 2 * (n + 1) = (2 * n + 1) + 1 := rfl
    simp only [h1, List.range_succ, List.map_append, List.map_cons, List.map_nil,
      List.append_assoc, List.cons_append, List.nil_append]
    rfl

theorem gradilac_run_eq (bits hci hc num_obs seed_i lcg_i : Nat) (hcv : List Nat) :
    gradilac_run bits hci hc num_obs seed_i lcg_i hcv =
      ((calc_run bits hc gradilac_sched (gradilac_st0 bits hci hc seed_i lcg_i hcv)
          (5 + (hc + 1) + 2 * num_obs), hc + 1 + 2 * num_obs),
        List.replicate 5 (0 % hc) ++
          (List.range (hc + 1 + 2 * num_obs)).map (fun t => t % hc),
        (List.range num_obs).map (fun k =>
          (calc_run bits hc gradilac_sched (gradilac_st0 bits hci hc seed_i lcg_i hcv)
            (5 + (hc + 1) + (2 * k + 1))).out ^^^
          (calc_run bits hc gradilac_sched (gradilac_st0 bits hci hc seed_i lcg_i hcv)
            (5 + (hc + 1) + (2 * k + 2))).out)) := by
  have e1 : calc_run bits hc gradilac_sched (gradilac_st0 bits hci hc seed_i lcg_i hcv) 5 =
      calc_run bits hc (fun _ => 0) (gradilac_st0 bits hci hc seed_i lcg_i hcv) 5 :=
    calc_run_congr bits hc _ _ _ 5 (fun t ht => by simp [gradilac_sched, ht])
  have e2 : calc_run bits hc gradilac_sched (gradilac_st0 bits hci hc seed_i lcg_i hcv)
      (5 + (hc + 1)) =
      calc_run bits hc (fun t => t)
        (calc_run bits hc (fun _ => 0) (gradilac_st0 bits hci hc seed_i lcg_i hcv) 5)
        (hc + 1) := by
    rw [calc_run_add, e1]
    apply calc_run_congr
    intro t ht
    simp only [gradilac_sched]
    rw [if_neg (by omega)]
    omega
  have e3 : ∀ j, calc_run bits hc gradilac_sched (gradilac_st0 bits hci hc seed_i lcg_i hcv)
      (5 + (hc + 1) + j) =
      calc_run bits hc (fun t => hc + 1 + t)
        (calc_run bits hc (fun t => t)
          (calc_run bits hc (fun _ => 0) (gradilac_st0 bits hci hc seed_i lcg_i hcv) 5)
          (hc + 1)) j := by
    intro j
    rw [calc_run_add, e2]
    apply calc_run_congr
    intro t ht
    simp only [gradilac_sched]
    rw [if_neg (by omega)]
    omega
  have hsplit : List.range (hc + 1 + 2 * num_obs) =
      List.range (hc + 1) ++ (List.range (2 * num_obs)).map (fun t => (hc + 1) + t) :=
    List.range_add (hc + 1) (2 * num_obs)
  simp only [gradilac_run, gradilac_loop1_eq, gradilac_loop2_eq, gradilac_loop3_eq,
    Nat.zero_add]
  refine congrArg₂ Prod.mk (congrArg₂ Prod.mk ?_ ?_) (congrArg₂ Prod.mk ?_ ?_)
  · rw [e3 (2 * num_obs)]
  · omega
  · rw [hsplit, List.map_append, List.map_map, List.append_assoc]
    congr 2
  · apply List.map_congr_left
    intro k _
    rw [e3 (2 * k + 1), e3 (2 * k + 2)]

/-! ### The symbolic side of the Variant A harness

The attacked unknowns (`start_seed`, `start_lcg`, `start_h[i]` for
`i < hci`) are free variables in the script; under any assignment they are
bit lists, so the symbolic harness is embedded as a function of those
lists.  `make_equal` constraints are recorded as pairs
(symbolic bit value, asserted boolean). -/

/-- Embeds the symbolic hash array initialization: fresh unknowns for the
first `hci` elements, `inibits(inst, bits, 0)` for the rest. -/
def gradilac_sat_h0 (bits hci hc : Nat) (svs : List (List Bool)) : List (List Bool) :=
  (List.range hc).map (fun i => if i < hci then svs.getD i [] else inibits bits 0)

def gradilac_sat_st0 (bits hci hc : Nat) (sseed slcg : List Bool)
    (svs : List (List Bool)) : SatState :=
  ⟨sseed, slcg, gradilac_sat_h0 bits hci hc svs, []⟩

/-- Embeds `for i, b in enumerate(out): b.make_equal(bool((v >> i) & 1))`:
one (symbolic bit, asserted bit) pair per position of `out`. -/
def make_equal_bits (out : List Bool) (v : Nat) : List (Bool × Bool) :=
  (List.range out.length).map (fun i => (out.getD i false, v.testBit i))

def gradilac_sat_loop1 (bits hc : Nat) (B5 BA : List Bool) (p : SatState × Nat) :
    Nat → SatState × Nat
  | 0 => p
  | n + 1 =>
    let q := gradilac_sat_loop1 bits hc B5 BA p n
    (sat_step_arr bits hc B5 BA q.2 q.1, q.2)

def gradilac_sat_loop2 (bits hc : Nat) (B5 BA : List Bool) (p : SatState × Nat) :
    Nat → SatState × Nat
  | 0 => p
  | n + 1 =>
    let q := gradilac_sat_loop2 bits hc B5 BA p n
    (sat_step_arr bits hc B5 BA q.2 q.1, q.2 + 1)

/-- Embeds the symbolic observation loop: two steps per round,
`out = xor(out1, out2)`, then the per-bit `make_equal` against `obs[k]`. -/
def gradilac_sat_loop3 (bits hc : Nat) (B5 BA : List Bool) (obs : List Nat)
    (p : SatState × Nat) : Nat → (SatState × Nat) × List (Bool × Bool)
  | 0 => (p, [])
  | n + 1 =>
    let q := gradilac_sat_loop3 bits hc B5 BA obs p n
    let st1 := sat_step_arr bits hc B5 BA q.1.2 q.1.1
    let st2 := sat_step_arr bits hc B5 BA (q.1.2 + 1) st1
    ((st2, q.1.2 + 2), q.2 ++ make_equal_bits (xor st1.out st2.out) (obs.getD n 0))

/-- The complete list of `make_equal` constraints emitted by the symbolic
Variant A harness against an observation list `obs`. -/
def gradilac_sat_constraints (bits hci hc num_obs : Nat) (B5 BA sseed slcg : List Bool)
    (svs : List (List Bool)) (obs : List Nat) : List (Bool × Bool) :=
  let p1 := gradilac_sat_loop1 bits hc B5 BA
    ((gradilac_sat_st0 bits hci hc sseed slcg svs), 0) 5
  let p2 := gradilac_sat_loop2 bits hc B5 BA p1 (hc + 1)
  (gradilac_sat_loop3 bits hc B5 BA obs p2 num_obs).2

/-! ### Characterizations of the symbolic loops -/

theorem sat_run_congr (bits hc : Nat) (B5 BA : List Bool) (f g : Nat → Nat)
    (st : SatState) (n : Nat) (h : ∀ t, t < n → f t = g t) :
    sat_run bits hc B5 BA f st n = sat_run bits hc B5 BA g st n := by
  induction n with
  | zero => rfl
  | succ n ih =>
    show sat_step_arr bits hc B5 BA (f n) _ = sat_step_arr bits hc B5 BA (g n) _
    rw [h n (by omega), ih (fun t ht => h t (by omega))]

theorem sat_run_add (bits hc : Nat) (B5 BA : List Bool) (f : Nat → Nat)
    (st : SatState) (m n : Nat) :
    sat_run bits hc B5 BA f st (m + n) =
      sat_run bits hc B5 BA (fun t => f (m + t)) (sat_run bits hc B5 BA f st m) n := by
  induction n with
  | zero => rfl
  | succ n ih =>
    show sat_step_arr bits hc B5 BA (f (m + n)) (sat_run bits hc B5 BA f st (m + n)) = _
    rw [ih]
    rfl

theorem gradilac_sat_loop1_eq (bits hc : Nat) (B5 BA : List Bool) (st : SatState)
    (x n : Nat) :
    gradilac_sat_loop1 bits hc B5 BA (st, x) n =
      (sat_run bits hc B5 BA (fun _ => x) st n, x) := by
  induction n with
  | zero => rfl
  | succ n ih =>
    show (let q := gradilac_sat_loop1 bits hc B5 BA (st, x) n
      (sat_step_arr bits hc B5 BA q.2 q.1, q.2)) = _
    rw [ih]
    rfl

theorem gradilac_sat_loop2_eq (bits hc : Nat) (B5 BA : List Bool) (st : SatState)
    (x n : Nat) :
    gradilac_sat_loop2 bits hc B5 BA (st, x) n =
      (sat_run bits hc B5 BA (fun t => x + t) st n, x + n) := by
  induction n with
  | zero => rfl
  | succ n ih =>
    show (let q := gradilac_sat_loop2 bits hc B5 BA (st, x) n
      (sat_step_arr bits hc B5 BA q.2 q.1, q.2 + 1)) = _
    rw [ih]
    rfl

theorem gradilac_sat_loop3_eq (bits hc : Nat) (B5 BA : List Bool) (obs : List Nat)
    (st : SatState) (x n : Nat) :
    gradilac_sat_loop3 bits hc B5 BA obs (st, x) n =
      ((sat_run bits hc B5 BA (fun t => x + t) st (2 * n), x + 2 * n),
        (List.range n).flatMap (fun k =>
          make_equal_bits
            (xor (sat_run bits hc B5 BA (fun t => x + t) st (2 * k + 1)).out
              (sat_run bits hc B5 BA (fun t => x + t) st (2 * k + 2)).out)
            (obs.getD k 0))) := by
  induction n with
  | zero => rfl
  | succ n ih =>
    show (let q := gradilac_sat_loop3 bits hc B5 BA obs (st, x) n
      ((sat_step_arr bits hc B5 BA (q.1.2 + 1) (sat_step_arr bits hc B5 BA q.1.2 q.1.1),
          q.1.2 + 2),
        q.2 ++ make_equal_bits
          (xor (sat_step_arr bits hc B5 BA q.1.2 q.1.1).out
            (sat_step_arr bits hc B5 BA (q.1.2 + 1)
              (sat_step_arr bits hc B5 BA q.1.2 q.1.1)).out)
          (obs.getD n 0))) = _
    rw [ih]
    have h1 : 2 * (n + 1) = (2 * n + 1) + 1 := rfl
    simp only [h1, List.range_succ, List.flatMap_append, List.flatMap_cons,
      List.flatMap_nil, List.append_nil]
    rfl

/-! ### Well-formedness of symbolic runs -/

/-- The componentwise decoding of a symbolic state. -/
def decodeSt (s : SatState) : CalcState :=
  ⟨decode s.seed, decode s.lcg, s.harr.map decode, decode s.out⟩

theorem mirrors_decodeSt (s : SatState) : mirrors (decodeSt s) s := ⟨rfl, rfl, rfl, rfl⟩

theorem sat_run_wf (b2 hc : Nat) (hb : 0 < b2) (hhc : 0 < hc) (f : Nat → Nat)
    (s : SatState) (hwf : satWF (2 * b2) s) (hlen : s.harr.length = hc) (n : Nat) :
    satWF (2 * b2)
      (sat_run (2 * b2) hc (inibits (2 * b2) (rawbits5 b2))
        (inibits (2 * b2) (rawbitsA b2)) f s n) ∧
    (sat_run (2 * b2) hc (inibits (2 * b2) (rawbits5 b2))
        (inibits (2 * b2) (rawbitsA b2)) f s n).harr.length = hc :=
  (run_mirror b2 hc hb hhc f (decodeSt s) s (mirrors_decodeSt s) hwf hlen n).2

theorem sat_step_out_length (b2 hc x : Nat) (hb : 0 < b2) (hhc : 0 < hc)
    (s : SatState) (hwf : satWF (2 * b2) s) (hlen : s.harr.length = hc) :
    (sat_step_arr (2 * b2) hc (inibits (2 * b2) (rawbits5 b2))
      (inibits (2 * b2) (rawbitsA b2)) x s).out.length = 2 * b2 := by
  obtain ⟨hs1, hs2, hs3⟩ := hwf
  have hi : x % hc < s.harr.length := by
    rw [hlen]
    exact Nat.mod_lt x hhc
  have hmem : s.harr.getD (x % hc) [] ∈ s.harr := by
    rw [List.getD_eq_getElem?_getD, List.getElem?_eq_getElem hi]
    exact List.getElem_mem _
  have he : (s.harr.getD (x % hc) []).length = 2 * b2 := hs3 _ hmem
  exact (prvhash_core_mirror b2 hb s.seed s.lcg _ hs1 hs2 he).2.2.2.2

theorem getD_range_map {α : Type} (f : Nat → α) (n k : Nat) (d : α) (h : k < n) :
    ((List.range n).map f).getD k d = f k := by
  rw [List.getD_eq_getElem?_getD, List.getElem?_map, List.getElem?_range h]
  rfl

/-! ### Claim C6: round-robin indexing -/

/-- C6 counterexample: in the concrete Variant A run with the script's
parameters reduced to `hc = 2`, the first and second step calls use the
same hash element (index 0), so the element index does not advance by one
modulo `hc` after every call. -/
theorem claim_C6_counterexample :
    (gradilac_trace 6 2 2 1 4 5 [13, 4]).getD 0 0 = 0 ∧
    (gradilac_trace 6 2 2 1 4 5 [13, 4]).getD 1 0 = 0 ∧
    1 < (gradilac_trace 6 2 2 1 4 5 [13, 4]).length ∧
    (gradilac_trace 6 2 2 1 4 5 [13, 4]).getD 1 0 ≠
      ((gradilac_trace 6 2 2 1 4 5 [13, 4]).getD 0 0 + 1) % 2 := by
  rw [gradilac_trace, gradilac_run_eq]
  decide

theorem flatMap_congr_left {α β : Type} (l : List α) (f g : α → List β)
    (h : ∀ a ∈ l, f a = g a) : l.flatMap f = l.flatMap g := by
  show (l.map f).flatten = (l.map g).flatten
  rw [List.map_congr_left h]

theorem gradilac_sat_constraints_eq (bits hci hc num_obs : Nat)
    (B5 BA sseed slcg : List Bool) (svs : List (List Bool)) (obs : List Nat) :
    gradilac_sat_constraints bits hci hc num_obs B5 BA sseed slcg svs obs =
      (List.range num_obs).flatMap (fun k =>
        make_equal_bits
          (xor (sat_run bits hc B5 BA gradilac_sched
              (gradilac_sat_st0 bits hci hc sseed slcg svs)
              (5 + (hc + 1) + (2 * k + 1))).out
            (sat_run bits hc B5 BA gradilac_sched
              (gradilac_sat_st0 bits hci hc sseed slcg svs)
              (5 + (hc + 1) + (2 * k + 2))).out)
          (obs.getD k 0)) := by
  have e1 : sat_run bits hc B5 BA gradilac_sched
      (gradilac_sat_st0 bits hci hc sseed slcg svs) 5 =
      sat_run bits hc B5 BA (fun _ => 0)
        (gradilac_sat_st0 bits hci hc sseed slcg svs) 5 :=
    sat_run_congr bits hc B5 BA _ _ _ 5 (fun t ht => by simp [gradilac_sched, ht])
  have e2 : sat_run bits hc B5 BA gradilac_sched
      (gradilac_sat_st0 bits hci hc sseed slcg svs) (5 + (hc + 1)) =
      sat_run bits hc B5 BA (fun t => t)
        (sat_run bits hc B5 BA (fun _ => 0)
          (gradilac_sat_st0 bits hci hc sseed slcg svs) 5) (hc + 1) := by
    rw [sat_run_add, e1]
    apply sat_run_congr
    intro t ht
    simp only [gradilac_sched]
    rw [if_neg (by omega)]
    omega
  have e3 : ∀ j, sat_run bits hc B5 BA gradilac_sched
      (gradilac_sat_st0 bits hci hc sseed slcg svs) (5 + (hc + 1) + j) =
      sat_run bits hc B5 BA (fun t => hc + 1 + t)
        (sat_run bits hc B5 BA (fun t => t)
          (sat_run bits hc B5 BA (fun _ => 0)
            (gradilac_sat_st0 bits hci hc sseed slcg svs) 5) (hc + 1)) j := by
    intro j
    rw [sat_run_add, e2]
    apply sat_run_congr
    intro t ht
    simp only [gradilac_sched]
    rw [if_neg (by omega)]
    omega
  simp only [gradilac_sat_constraints, gradilac_sat_loop1_eq, gradilac_sat_loop2_eq,
    gradilac_sat_loop3_eq, Nat.zero_add]
  apply flatMap_congr_left
  intro k _
  rw [e3 (2 * k + 1), e3 (2 * k + 2)]

/-- C5: in Variant A the schedule is exactly five ignored calls, then
`hc+1` further ignored calls, then per observation round two consecutive
calls whose outputs are XORed into the observation; and the symbolic
harness emits, for every round, one equality constraint per bit position
of the full state width, pairing bit `i` of the symbolic `out1 xor out2`
with bit `i` of the concrete observation of that round. -/
theorem claim_C5_variantA_schedule (b2 hci hc num_obs seed_i lcg_i : Nat)
    (hcv : List Nat) (sseed slcg : List Bool) (svs : List (List Bool))
    (hb : 0 < b2) (hhc : 0 < hc)
    (hss : sseed.length = 2 * b2) (hsl : slcg.length = 2 * b2)
    (hsvs : ∀ l ∈ svs, l.length = 2 * b2) (hsvslen : hci ≤ svs.length) :
    (gradilac_calc_obs (2 * b2) hci hc num_obs seed_i lcg_i hcv).length = num_obs ∧
    (∀ k, k < num_obs →
      (gradilac_calc_obs (2 * b2) hci hc num_obs seed_i lcg_i hcv).getD k 0 =
        (calc_run (2 * b2) hc gradilac_sched
          (gradilac_st0 (2 * b2) hci hc seed_i lcg_i hcv)
          (5 + (hc + 1) + (2 * k + 1))).out ^^^
        (calc_run (2 * b2) hc gradilac_sched
          (gradilac_st0 (2 * b2) hci hc seed_i lcg_i hcv)
          (5 + (hc + 1) + (2 * k + 2))).out) ∧
    gradilac_sat_constraints (2 * b2) hci hc num_obs
        (inibits (2 * b2) (rawbits5 b2)) (inibits (2 * b2) (rawbitsA b2))
        sseed slcg svs
        (gradilac_calc_obs (2 * b2) hci hc num_obs seed_i lcg_i hcv) =
      (List.range num_obs).flatMap (fun k =>
        (List.range (2 * b2)).map (fun i =>
          ((xor (sat_run (2 * b2) hc (inibits (2 * b2) (rawbits5 b2))
              (inibits (2 * b2) (rawbitsA b2)) gradilac_sched
              (gradilac_sat_st0 (2 * b2) hci hc sseed slcg svs)
              (5 + (hc + 1) + (2 * k + 1))).out
            (sat_run (2 * b2) hc (inibits (2 * b2) (rawbits5 b2))
              (inibits (2 * b2) (rawbitsA b2)) gradilac_sched
              (gradilac_sat_st0 (2 * b2) hci hc sseed slcg svs)
              (5 + (hc + 1) + (2 * k + 2))).out).getD i false,
           Nat.testBit
             ((gradilac_calc_obs (2 * b2) hci hc num_obs seed_i lcg_i hcv).getD k 0)
             i))) := by
  have hobs : gradilac_calc_obs (2 * b2) hci hc num_obs seed_i lcg_i hcv =
      (List.range num_obs).map (fun k =>
        (calc_run (2 * b2) hc gradilac_sched
          (gradilac_st0 (2 * b2) hci hc seed_i lcg_i hcv)
          (5 + (hc + 1) + (2 * k + 1))).out ^^^
        (calc_run (2 * b2) hc gradilac_sched
          (gradilac_st0 (2 * b2) hci hc seed_i lcg_i hcv)
          (5 + (hc + 1) + (2 * k + 2))).out) := by
    rw [gradilac_calc_obs, gradilac_run_eq]
  have hwf0 : satWF (2 * b2) (gradilac_sat_st0 (2 * b2) hci hc sseed slcg svs) := by
    refine ⟨hss, hsl, ?_⟩
    intro l hl
    simp only [gradilac_sat_st0, gradilac_sat_h0] at hl
    obtain ⟨i, hi, hval⟩ := List.mem_map.1 hl
    by_cases hihci : i < hci
    · rw [if_pos hihci] at hval
      subst hval
      apply hsvs
      have hisv : i < svs.length := by omega
      rw [List.getD_eq_getElem?_getD, List.getElem?_eq_getElem hisv]
      exact List.getElem_mem _
    · rw [if_neg hihci] at hval
      subst hval
      exact inibits_length _ _
  have hlen0 : (gradilac_sat_st0 (2 * b2) hci hc sseed slcg svs).harr.length = hc := by
    simp [gradilac_sat_st0, gradilac_sat_h0]
  have houtlen : ∀ m : Nat,
      (sat_run (2 * b2) hc (inibits (2 * b2) (rawbits5 b2))
        (inibits (2 * b2) (rawbitsA b2)) gradilac_sched
        (gradilac_sat_st0 (2 * b2) hci hc sseed slcg svs) (m + 1)).out.length = 2 * b2 := by
    intro m
    obtain ⟨hwfm, hlenm⟩ := sat_run_wf b2 hc hb hhc gradilac_sched _ hwf0 hlen0 m
    exact sat_step_out_length b2 hc (gradilac_sched m) hb hhc _ hwfm hlenm
  refine ⟨?_, ?_, ?_⟩
  · rw [hobs, List.length_map, List.length_range]
  · intro k hk
    rw [hobs, getD_range_map _ _ _ _ hk]
  · rw [gradilac_sat_constraints_eq]
    apply flatMap_congr_left
    intro k hk
    rw [make_equal_bits]
    have hx1 : 5 + (hc + 1) + (2 * k + 1) = (5 + (hc + 1) + 2 * k) + 1 := by omega
    have hx2 : 5 + (hc + 1) + (2 * k + 2) = (5 + (hc + 1) + 2 * k + 1) + 1 := by omega
    have hlen1 := houtlen (5 + (hc + 1) + 2 * k)
    have hlen2 := houtlen (5 + (hc + 1) + 2 * k + 1)
    rw [← hx1] at hlen1
    rw [← hx2] at hlen2
    rw [xor_length, hlen1, hlen2, Nat.min_self]

/-- Witness for C5 at width 2, one hash element, one observation round. -/
theorem claim_C5_variantA_schedule_witness :
    (gradilac_calc_obs (2 * 1) 1 1 1 1 2 [3]).length = 1 ∧
    (∀ k, k < 1 →
      (gradilac_calc_obs (2 * 1) 1 1 1 1 2 [3]).getD k 0 =
        (calc_run (2 * 1) 1 gradilac_sched (gradilac_st0 (2 * 1) 1 1 1 2 [3])
          (5 + (1 + 1) + (2 * k + 1))).out ^^^
        (calc_run (2 * 1) 1 gradilac_sched (gradilac_st0 (2 * 1) 1 1 1 2 [3])
          (5 + (1 + 1) + (2 * k + 2))).out) ∧
    gradilac_sat_constraints (2 * 1) 1 1 1
        (inibits (2 * 1) (rawbits5 1)) (inibits (2 * 1) (rawbitsA 1))
        (inibits 2 1) (inibits 2 2) [inibits 2 3]
        (gradilac_calc_obs (2 * 1) 1 1 1 1 2 [3]) =
      (List.range 1).flatMap (fun k =>
        (List.range (2 * 1)).map (fun i =>
          ((xor (sat_run (2 * 1) 1 (inibits (2 * 1) (rawbits5 1))
              (inibits (2 * 1) (rawbitsA 1)) gradilac_sched
              (gradilac_sat_st0 (2 * 1) 1 1 (inibits 2 1) (inibits 2 2) [inibits 2 3])
              (5 + (1 + 1) + (2 * k + 1))).out
            (sat_run (2 * 1) 1 (inibits (2 * 1) (rawbits5 1))
              (inibits (2 * 1) (rawbitsA 1)) gradilac_sched
              (gradilac_sat_st0 (2 * 1) 1 1 (inibits 2 1) (inibits 2 2) [inibits 2 3])
              (5 + (1 + 1) + (2 * k + 2))).out).getD i false,
           Nat.testBit ((gradilac_calc_obs (2 * 1) 1 1 1 1 2 [3]).getD k 0) i))) :=
  claim_C5_variantA_schedule 1 1 1 1 1 2 [3] (inibits 2 1) (inibits 2 2) [inibits 2 3]
    (by decide) (by decide) (by decide) (by decide) (by decide) (by decide)

/-- C9: the most significant bit of `lcg` never influences the
multiplicative seed update: two concrete step inputs whose `lcg` values
agree on the low `w-1` bits (in particular, values differing only in the
top bit) yield identical `seed` and `hash_word` result components, and the
symbolic step applied to `lcg` bit-vectors with equal `dropLast` (the
multiplier is `[True] + lcg[:-1]`, dropping the top bit) yields identical
`seed` and `hash_word` bit-vectors. -/
theorem claim_C9_lcg_top_bit (b2 : Nat) (hb : 0 < b2) (seed h lcg1 lcg2 : Nat)
    (hl : lcg1 % 2 ^ (2 * b2 - 1) = lcg2 % 2 ^ (2 * b2 - 1))
    (B5 BA ls lh sl1 sl2 : List Bool) (hdl : sl1.dropLast = sl2.dropLast) :
    ((prvhash_core_calc (2 * b2) seed lcg1 h).1 =
        (prvhash_core_calc (2 * b2) seed lcg2 h).1 ∧
      (prvhash_core_calc (2 * b2) seed lcg1 h).2.2.1 =
        (prvhash_core_calc (2 * b2) seed lcg2 h).2.2.1) ∧
    ((prvhash_core_sat (2 * b2) B5 BA ls sl1 lh).1 =
        (prvhash_core_sat (2 * b2) B5 BA ls sl2 lh).1 ∧
      (prvhash_core_sat (2 * b2) B5 BA ls sl1 lh).2.2.1 =
        (prvhash_core_sat (2 * b2) B5 BA ls sl2 lh).2.2.1) := by
  have h2w : (2 : Nat) * 2 ^ (2 * b2 - 1) = 2 ^ (2 * b2) := by
    rw [← pow_succ']
    congr 1
    omega
  have hmul : (lcg1 * 2 + 1) ≡ (lcg2 * 2 + 1) [MOD 2 ^ (2 * b2)] := by
    have hbase : lcg1 ≡ lcg2 [MOD 2 ^ (2 * b2 - 1)] := hl
    have h2 : 2 * lcg1 ≡ 2 * lcg2 [MOD 2 ^ (2 * b2)] := by
      rw [← h2w]
      exact hbase.mul_left' 2
    have := h2.add_right 1
    simpa [mul_comm] using this
  have hseed1 : calcSeed1 (2 * b2) seed lcg1 = calcSeed1 (2 * b2) seed lcg2 := by
    rw [calcSeed1, calcSeed1, mask_eq_mod, mask_eq_mod]
    exact hmul.mul_left seed
  have hrs : calcRs (2 * b2) seed lcg1 = calcRs (2 * b2) seed lcg2 := by
    rw [calcRs, calcRs, hseed1]
  have hH : calcH (2 * b2) seed lcg1 h = calcH (2 * b2) seed lcg2 h := by
    rw [calcH, calcH, hrs]
  have hsatM : satM ls sl1 = satM ls sl2 := by
    rw [satM, satM, hdl]
  have hsatRs : satRs (2 * b2) ls sl1 = satRs (2 * b2) ls sl2 := by
    rw [satRs, satRs, hsatM]
  have hsatH : satH (2 * b2) BA ls sl1 lh = satH (2 * b2) BA ls sl2 lh := by
    rw [satH, satH, hsatRs]
  refine ⟨⟨?_, ?_⟩, ?_, ?_⟩
  · rw [prvhash_core_calc_eq, prvhash_core_calc_eq]
    show calcSeed1 (2 * b2) seed lcg1 ^^^ calcH (2 * b2) seed lcg1 h = _
    rw [hseed1, hH]
  · rw [prvhash_core_calc_eq, prvhash_core_calc_eq]
    show calcH (2 * b2) seed lcg1 h = _
    rw [hH]
  · rw [prvhash_core_sat_eq, prvhash_core_sat_eq]
    show xor (satM ls sl1) (satH (2 * b2) BA ls sl1 lh) = _
    rw [hsatM, hsatH]
  · rw [prvhash_core_sat_eq, prvhash_core_sat_eq]
    show satH (2 * b2) BA ls sl1 lh = _
    rw [hsatH]

/-- Witness for C9 at width 2 with `lcg` inputs 1 and 3 (differing only in
the top bit) and symbolic `lcg` lists differing only in the last bit. -/
theorem claim_C9_lcg_top_bit_witness :
    (((prvhash_core_calc (2 * 1) 1 1 2).1 = (prvhash_core_calc (2 * 1) 1 3 2).1 ∧
      (prvhash_core_calc (2 * 1) 1 1 2).2.2.1 = (prvhash_core_calc (2 * 1) 1 3 2).2.2.1) ∧
    ((prvhash_core_sat (2 * 1) (inibits 2 1) (inibits 2 2) [true, false]
        [true, false] [false, true]).1 =
      (prvhash_core_sat (2 * 1) (inibits 2 1) (inibits 2 2) [true, false]
        [true, true] [false, true]).1 ∧
      (prvhash_core_sat (2 * 1) (inibits 2 1) (inibits 2 2) [true, false]
        [true, false] [false, true]).2.2.1 =
      (prvhash_core_sat (2 * 1) (inibits 2 1) (inibits 2 2) [true, false]
        [true, true] [false, true]).2.2.1)) :=
  claim_C9_lcg_top_bit 1 (by decide) 1 2 1 3 (by decide)
    (inibits 2 1) (inibits 2 2) [true, false] [false, true]
    [true, false] [true, true] (by decide)

/-! ### The Variant B (tango642) harness

State of `t642_sat.py`: the main keyed core (seed, lcg, keyed hash array)
plus four firewall cores `(seed_k, lcg_k)` sharing one 5-element auxiliary
hash array `h2`. -/

structure T642Calc where
  main : CalcState
  seed1 : Nat
  lcg1 : Nat
  seed2 : Nat
  lcg2 : Nat
  seed3 : Nat
  lcg3 : Nat
  seed4 : Nat
  lcg4 : Nat
  h2 : List Nat

structure T642Sat where
  main : SatState
  seed1 : List Bool
  lcg1 : List Bool
  seed2 : List Bool
  lcg2 : List Bool
  seed3 : List Bool
  lcg3 : List Bool
  seed4 : List Bool
  lcg4 : List Bool
  h2 : List (List Bool)

/-- Embeds one round of the firewall loop body (lines 142-150 of
`t642_sat.py`): advance the main core one step using hash index `x`, XOR
its output into the fourth firewall seed lane, then advance the four
firewall cores on shared-array elements `(x2+0..3) % 5`.  Returns the new
state and the four firewall output words. -/
def t642_round (bits hc x x2 : Nat) (st : T642Calc) :
    T642Calc × Nat × Nat × Nat × Nat :=
  let m := calc_step_arr bits hc x st.main
  let seed4a := st.seed4 ^^^ m.out
  let r1 := prvhash_core_calc bits st.seed1 st.lcg1 (st.h2.getD ((x2 + 0) % 5) 0)
  let h2a := st.h2.set ((x2 + 0) % 5) r1.2.2.1
  let r2 := prvhash_core_calc bits st.seed2 st.lcg2 (h2a.getD ((x2 + 1) % 5) 0)
  let h2b := h2a.set ((x2 + 1) % 5) r2.2.2.1
  let r3 := prvhash_core_calc bits st.seed3 st.lcg3 (h2b.getD ((x2 + 2) % 5) 0)
  let h2c := h2b.set ((x2 + 2) % 5) r3.2.2.1
  let r4 := prvhash_core_calc bits seed4a st.lcg4 (h2c.getD ((x2 + 3) % 5) 0)
  let h2d := h2c.set ((x2 + 3) % 5) r4.2.2.1
  (⟨m, r1.1, r1.2.1, r2.1, r2.2.1, r3.1, r3.2.1, r4.1, r4.2.1, h2d⟩,
    r1.2.2.2, r2.2.2.2, r3.2.2.2, r4.2.2.2)

/-- Symbolic analogue of `t642_round`. -/
def t642_sat_round (bits hc : Nat) (B5 BA : List Bool) (x x2 : Nat) (st : T642Sat) :
    T642Sat × List Bool × List Bool × List Bool × List Bool :=
  let m := sat_step_arr bits hc B5 BA x st.main
  let seed4a := xor st.seed4 m.out
  let r1 := prvhash_core_sat bits B5 BA st.seed1 st.lcg1 (st.h2.getD ((x2 + 0) % 5) [])
  let h2a := st.h2.set ((x2 + 0) % 5) r1.2.2.1
  let r2 := prvhash_core_sat bits B5 BA st.seed2 st.lcg2 (h2a.getD ((x2 + 1) % 5) [])
  let h2b := h2a.set ((x2 + 1) % 5) r2.2.2.1
  let r3 := prvhash_core_sat bits B5 BA st.seed3 st.lcg3 (h2b.getD ((x2 + 2) % 5) [])
  let h2c := h2b.set ((x2 + 2) % 5) r3.2.2.1
  let r4 := prvhash_core_sat bits B5 BA seed4a st.lcg4 (h2c.getD ((x2 + 3) % 5) [])
  let h2d := h2c.set ((x2 + 3) % 5) r4.2.2.1
  (⟨m, r1.1, r1.2.1, r2.1, r2.2.1, r3.1, r3.2.1, r4.1, r4.2.1, h2d⟩,
    r1.2.2.2, r2.2.2.2, r3.2.2.2, r4.2.2.2)

/-- Embeds the concrete nonce-injection pass (lines 128-135 of
`t642_sat.py`): on odd loop indices with unconsumed nonce words, XOR
`iv[ivpos] & bmask` into both seed and lcg before the step; `x` advances
after every step.  State is `(core state, x, ivpos)`; the per-call index
trace is also recorded. -/
def t642_iv_loop (bits hc ivlen : Nat) (iv : List Nat) (p : CalcState × Nat × Nat) :
    Nat → (CalcState × Nat × Nat) × List Nat
  | 0 => (p, [])
  | n + 1 =>
    let q := t642_iv_loop bits hc ivlen iv p n
    let st := q.1.1
    let x := q.1.2.1
    let ivpos := q.1.2.2
    if (n &&& 1) = 1 ∧ ivpos < ivlen then
      let w := iv.getD ivpos 0 &&& ((1 <<< bits) - 1)
      ((calc_step_arr bits hc x ⟨st.seed ^^^ w, st.lcg ^^^ w, st.harr, st.out⟩,
          x + 1, ivpos + 1), q.2 ++ [x % hc])
    else
      ((calc_step_arr bits hc x st, x + 1, ivpos), q.2 ++ [x % hc])

/-- Embeds the symbolic nonce-injection pass (lines 207-214): the same
schedule, XORing the constant bit-vector `inibits(inst, bits, iv[ivpos])`
into seed and lcg. -/
def t642_sat_iv_loop (bits hc ivlen : Nat) (iv : List Nat) (B5 BA : List Bool)
    (p : SatState × Nat × Nat) : Nat → SatState × Nat × Nat
  | 0 => p
  | n + 1 =>
    let q := t642_sat_iv_loop bits hc ivlen iv B5 BA p n
    let st := q.1
    let x := q.2.1
    let ivpos := q.2.2
    if (n &&& 1) = 1 ∧ ivpos < ivlen then
      (sat_step_arr bits hc B5 BA x
          ⟨xor st.seed (inibits bits (iv.getD ivpos 0)),
           xor st.lcg (inibits bits (iv.getD ivpos 0)), st.harr, st.out⟩,
        x + 1, ivpos + 1)
    else
      (sat_step_arr bits hc B5 BA x st, x + 1, ivpos)

/-- State-only iteration of the firewall rounds: `x` and `x2` advance by
one per round. -/
def t642_fw_run (bits hc : Nat) (p : T642Calc × Nat × Nat) : Nat → T642Calc × Nat × Nat
  | 0 => p
  | n + 1 =>
    let q := t642_fw_run bits hc p n
    ((t642_round bits hc q.2.1 q.2.2 q.1).1, q.2.1 + 1, q.2.2 + 1)

/-- The four firewall output words of round `k` (0-based) of the firewall
loop started at `p`. -/
def t642_round_outs (bits hc : Nat) (p : T642Calc × Nat × Nat) (k : Nat) : List Nat :=
  let q := t642_fw_run bits hc p k
  let r := t642_round bits hc q.2.1 q.2.2 q.1
  [r.2.1, r.2.2.1, r.2.2.2.1, r.2.2.2.2]

/-- Embeds the concrete firewall loop (lines 141-156): per round one main
step, the seed-lane XOR, four firewall steps; rounds with index `≥ fc`
append their four outputs to `obs`.  Also records the main-array index
trace and the shared `h2` index trace. -/
def t642_fw_loop (bits hc fc : Nat) (p : T642Calc × Nat × Nat) :
    Nat → (T642Calc × Nat × Nat) × List Nat × List Nat × List Nat
  | 0 => (p, [], [], [])
  | n + 1 =>
    let q := t642_fw_loop bits hc fc p n
    let x := q.1.2.1
    let x2 := q.1.2.2
    let r := t642_round bits hc x x2 q.1.1
    ((r.1, x + 1, x2 + 1),
      q.2.1 ++ [x % hc],
      q.2.2.1 ++ [(x2 + 0) % 5, (x2 + 1) % 5, (x2 + 2) % 5, (x2 + 3) % 5],
      if fc ≤ n then q.2.2.2 ++ [r.2.1, r.2.2.1, r.2.2.2.1, r.2.2.2.2] else q.2.2.2)

/-- Symbolic state-only iteration of the firewall rounds. -/
def t642_sat_fw_run (bits hc : Nat) (B5 BA : List Bool) (p : T642Sat × Nat × Nat) :
    Nat → T642Sat × Nat × Nat
  | 0 => p
  | n + 1 =>
    let q := t642_sat_fw_run bits hc B5 BA p n
    ((t642_sat_round bits hc B5 BA q.2.1 q.2.2 q.1).1, q.2.1 + 1, q.2.2 + 1)

/-- The four symbolic firewall outputs of round `k` of the symbolic
firewall loop started at `p`. -/
def t642_sat_round_outs (bits hc : Nat) (B5 BA : List Bool) (p : T642Sat × Nat × Nat)
    (k : Nat) : List (List Bool) :=
  let q := t642_sat_fw_run bits hc B5 BA p k
  let r := t642_sat_round bits hc B5 BA q.2.1 q.2.2 q.1
  [r.2.1, r.2.2.1, r.2.2.2.1, r.2.2.2.2]

/-- Embeds the symbolic firewall loop (lines 220-239): rounds with index
`≥ fc` emit per-bit `make_equal` constraints binding the four symbolic
outputs to `obs[(k-fc)*4 + 0..3]`. -/
def t642_sat_fw_loop (bits hc fc : Nat) (B5 BA : List Bool) (obs : List Nat)
    (p : T642Sat × Nat × Nat) : Nat → (T642Sat × Nat × Nat) × List (Bool × Bool)
  | 0 => (p, [])
  | n + 1 =>
    let q := t642_sat_fw_loop bits hc fc B5 BA obs p n
    let x := q.1.2.1
    let x2 := q.1.2.2
    let r := t642_sat_round bits hc B5 BA x x2 q.1.1
    ((r.1, x + 1, x2 + 1),
      if fc ≤ n then
        q.2 ++ make_equal_bits r.2.1 (obs.getD ((n - fc) * 4 + 0) 0)
          ++ make_equal_bits r.2.2.1 (obs.getD ((n - fc) * 4 + 1) 0)
          ++ make_equal_bits r.2.2.2.1 (obs.getD ((n - fc) * 4 + 2) 0)
          ++ make_equal_bits r.2.2.2.2 (obs.getD ((n - fc) * 4 + 3) 0)
      else q.2)

/-- The whole concrete Variant B harness (lines 102-156 of `t642_sat.py`):
masked key seed, zero lcg, keyed hash array, five warm-up calls, the
nonce-injection pass of `hc` calls, `hc+1` further calls, then the
firewall rounds from zero-initialized firewall cores and shared array.
Returns the final state, the main-array index trace, the shared `h2`
index trace, and the observation list. -/
def t642_calc (bits hci hc ivlen fc num_obs seed_i : Nat) (hcv iv : List Nat) :
    (T642Calc × Nat × Nat) × List Nat × List Nat × List Nat :=
  let st0 : CalcState := ⟨seed_i &&& ((1 <<< bits) - 1), 0,
    gradilac_init_h bits hci hc hcv, 0⟩
  let p1 := gradilac_loop1 bits hc (st0, 0) 5
  let p2 := t642_iv_loop bits hc ivlen iv (p1.1.1, p1.1.2, 0) hc
  let p3 := gradilac_loop2 bits hc (p2.1.1, p2.1.2.1) (hc + 1)
  let fw0 : T642Calc := ⟨p3.1.1, 0, 0, 0, 0, 0, 0, 0, 0, [0, 0, 0, 0, 0]⟩
  let p4 := t642_fw_loop bits hc fc (fw0, p3.1.2, 0) (fc + num_obs)
  (p4.1, p1.2 ++ p2.2 ++ p3.2 ++ p4.2.1, p4.2.2.1, p4.2.2.2)

/-- The observation list of the concrete Variant B harness. -/
def t642_calc_obs (bits hci hc ivlen fc num_obs seed_i : Nat) (hcv iv : List Nat) : List Nat :=
  (t642_calc bits hci hc ivlen fc num_obs seed_i hcv iv).2.2.2

/-- The main-array per-call index trace of the Variant B harness. -/
def t642_main_trace (bits hci hc ivlen fc num_obs seed_i : Nat) (hcv iv : List Nat) : List Nat :=
  (t642_calc bits hci hc ivlen fc num_obs seed_i hcv iv).2.1

/-- The shared firewall-array per-call index trace of the Variant B harness. -/
def t642_h2_trace (bits hci hc ivlen fc num_obs seed_i : Nat) (hcv iv : List Nat) : List Nat :=
  (t642_calc bits hci hc ivlen fc num_obs seed_i hcv iv).2.2.1

/-- Follows the claim's words for C7: during the initialization pass, the
`j`-th nonce word (masked to the width) is XORed into both `seed` and
`lcg` immediately before the step with in-pass index `2j+1`, for
`j < ivlen`; no other step is preceded by an injection. -/
def t642_iv_spec_run (bits hc ivlen : Nat) (iv : List Nat) (st : CalcState)
    (x0 : Nat) : Nat → CalcState
  | 0 => st
  | n + 1 =>
    let st' := t642_iv_spec_run bits hc ivlen iv st x0 n
    let st'' := if n % 2 = 1 ∧ (n - 1) / 2 < ivlen then
        (⟨st'.seed ^^^ (iv.getD ((n - 1) / 2) 0 &&& ((1 <<< bits) - 1)),
          st'.lcg ^^^ (iv.getD ((n - 1) / 2) 0 &&& ((1 <<< bits) - 1)),
          st'.harr, st'.out⟩ : CalcState)
      else st'
    calc_step_arr bits hc (x0 + n) st''

theorem t642_iv_loop_eq (bits hc ivlen : Nat) (iv : List Nat) (st : CalcState)
    (x0 n : Nat) :
    t642_iv_loop bits hc ivlen iv (st, x0, 0) n =
      ((t642_iv_spec_run bits hc ivlen iv st x0 n, x0 + n, min (n / 2) ivlen),
        (List.range n).map (fun t => (x0 + t) % hc)) := by
  induction n with
  | zero => simp [t642_iv_loop, t642_iv_spec_run]
  | succ n ih =>
    rw [t642_iv_loop, ih]
    simp only [Nat.and_one_is_mod]
    rw [t642_iv_spec_run]
    by_cases hB : n % 2 = 1 ∧ (n - 1) / 2 < ivlen
    · have hA : n % 2 = 1 ∧ min (n / 2) ivlen < ivlen := by
        constructor
        · exact hB.1
        · omega
      rw [if_pos hA, if_pos hB]
      have hidx : min (n / 2) ivlen = (n - 1) / 2 := by omega
      have hpos : min ((n + 1) / 2) ivlen = min (n / 2) ivlen + 1 := by omega
      rw [hidx, List.range_succ, List.map_append]
      simp only [List.map_cons, List.map_nil]
      refine congrArg₂ Prod.mk (congrArg₂ Prod.mk rfl ?_) rfl
      rw [← hidx, hpos]
      rfl
    · have hA : ¬ (n % 2 = 1 ∧ min (n / 2) ivlen < ivlen) := by
        intro h
        exact hB ⟨h.1, by omega⟩
      rw [if_neg hA, if_neg hB]
      have hpos : min ((n + 1) / 2) ivlen = min (n / 2) ivlen := by omega
      rw [List.range_succ, List.map_append]
      simp only [List.map_cons, List.map_nil]
      refine congrArg₂ Prod.mk (congrArg₂ Prod.mk rfl ?_) rfl
      rw [hpos]
      rfl

theorem t642_fw_run_x (bits hc : Nat) (p : T642Calc × Nat × Nat) (n : Nat) :
    (t642_fw_run bits hc p n).2.1 = p.2.1 + n ∧
    (t642_fw_run bits hc p n).2.2 = p.2.2 + n := by
  induction n with
  | zero => exact ⟨rfl, rfl⟩
  | succ n ih =>
    rw [t642_fw_run]
    constructor
    · show (t642_fw_run bits hc p n).2.1 + 1 = p.2.1 + (n + 1)
      omega
    · show (t642_fw_run bits hc p n).2.2 + 1 = p.2.2 + (n + 1)
      omega

theorem t642_fw_loop_eq (bits hc fc : Nat) (p : T642Calc × Nat × Nat) (n : Nat) :
    t642_fw_loop bits hc fc p n =
      (t642_fw_run bits hc p n,
        (List.range n).map (fun r => (p.2.1 + r) % hc),
        (List.range n).flatMap (fun r =>
          [(p.2.2 + r + 0) % 5, (p.2.2 + r + 1) % 5,
           (p.2.2 + r + 2) % 5, (p.2.2 + r + 3) % 5]),
        (List.range n).flatMap (fun r =>
          if fc ≤ r then t642_round_outs bits hc p r else [])) := by
  induction n with
  | zero => rfl
  | succ n ih =>
    rw [t642_fw_loop, ih]
    obtain ⟨hx, hx2⟩ := t642_fw_run_x bits hc p n
    simp only [hx, hx2, List.range_succ, List.map_append, List.flatMap_append,
      List.map_cons, List.map_nil, List.flatMap_cons, List.flatMap_nil,
      List.append_nil]
    refine congrArg₂ Prod.mk ?_ (congrArg₂ Prod.mk rfl (congrArg₂ Prod.mk rfl ?_))
    · rw [t642_fw_run, hx, hx2]
    · rw [t642_round_outs]
      simp only [hx, hx2]
      by_cases hfc : fc ≤ n
      · rw [if_pos hfc, if_pos hfc]
      · rw [if_neg hfc, if_neg hfc, List.append_nil]

theorem flatMap_range_if_ge {α : Type} (fc num : Nat) (f : Nat → List α) :
    (List.range (fc + num)).flatMap (fun r => if fc ≤ r then f r else []) =
      (List.range num).flatMap (fun k => f (fc + k)) := by
  rw [List.range_add, List.flatMap_append, List.flatMap_map]
  have h1 : (List.range fc).flatMap (fun r => if fc ≤ r then f r else []) = [] :=
    List.flatMap_eq_nil_iff.2 (fun r hr =>
      if_neg (by rw [List.mem_range] at hr; omega))
  rw [h1, List.nil_append]
  apply flatMap_congr_left
  intro k _
  exact if_pos (by omega)

theorem length_flatMap_const {α β : Type} (l : List α) (f : α → List β) (c : Nat)
    (h : ∀ a ∈ l, (f a).length = c) : (l.flatMap f).length = l.length * c := by
  induction l with
  | nil => simp
  | cons a as ih =>
    rw [List.flatMap_cons, List.length_append, h a (by simp),
      ih (fun b hb => h b (by simp [hb])), List.length_cons]
    ring

theorem t642_sat_fw_run_x (bits hc : Nat) (B5 BA : List Bool)
    (p : T642Sat × Nat × Nat) (n : Nat) :
    (t642_sat_fw_run bits hc B5 BA p n).2.1 = p.2.1 + n ∧
    (t642_sat_fw_run bits hc B5 BA p n).2.2 = p.2.2 + n := by
  induction n with
  | zero => exact ⟨rfl, rfl⟩
  | succ n ih =>
    rw [t642_sat_fw_run]
    constructor
    · show (t642_sat_fw_run bits hc B5 BA p n).2.1 + 1 = p.2.1 + (n + 1)
      omega
    · show (t642_sat_fw_run bits hc B5 BA p n).2.2 + 1 = p.2.2 + (n + 1)
      omega

theorem t642_sat_fw_loop_eq (bits hc fc : Nat) (B5 BA : List Bool) (obs : List Nat)
    (p : T642Sat × Nat × Nat) (n : Nat) :
    t642_sat_fw_loop bits hc fc B5 BA obs p n =
      (t642_sat_fw_run bits hc B5 BA p n,
        (List.range n).flatMap (fun r =>
          if fc ≤ r then
            make_equal_bits ((t642_sat_round_outs bits hc B5 BA p r).getD 0 [])
                (obs.getD ((r - fc) * 4 + 0) 0) ++
              make_equal_bits ((t642_sat_round_outs bits hc B5 BA p r).getD 1 [])
                (obs.getD ((r - fc) * 4 + 1) 0) ++
              make_equal_bits ((t642_sat_round_outs bits hc B5 BA p r).getD 2 [])
                (obs.getD ((r - fc) * 4 + 2) 0) ++
              make_equal_bits ((t642_sat_round_outs bits hc B5 BA p r).getD 3 [])
                (obs.getD ((r - fc) * 4 + 3) 0)
          else [])) := by
  induction n with
  | zero => rfl
  | succ n ih =>
    rw [t642_sat_fw_loop, ih]
    simp only [List.range_succ, List.flatMap_append, List.flatMap_cons,
      List.flatMap_nil, List.append_nil]
    refine congrArg₂ Prod.mk ?_ ?_
    · rw [t642_sat_fw_run]
    · by_cases hfc : fc ≤ n
      · rw [if_pos hfc, if_pos hfc]
        simp only [List.append_assoc]
        rfl
      · rw [if_neg hfc, if_neg hfc, List.append_nil]

/-- C8: in Variant B, each round advances the main keyed core by one step
and XORs its output into the fourth firewall seed lane before the four
firewall steps (this is the round function); the first `fc` rounds
contribute no observations, round `fc+k` contributes its four firewall
outputs in order, the observation list has `4 * num_obs` entries, and the
symbolic loop emits, for round `fc+k`, per-bit equality constraints
binding the four symbolic outputs to `obs[4k+0..3]`. -/
theorem claim_C8_firewall_schedule (bits hc fc num_obs : Nat) (B5 BA : List Bool)
    (obs : List Nat) (p : T642Calc × Nat × Nat) (ps : T642Sat × Nat × Nat) :
    (∀ x x2 st, (t642_round bits hc x x2 st).1.main = calc_step_arr bits hc x st.main) ∧
    (∀ x x2 st, ∃ h4 : Nat, (t642_round bits hc x x2 st).2.2.2.2 =
      (prvhash_core_calc bits
        (st.seed4 ^^^ (calc_step_arr bits hc x st.main).out) st.lcg4 h4).2.2.2 ∧
      (t642_round bits hc x x2 st).1.seed4 =
      (prvhash_core_calc bits
        (st.seed4 ^^^ (calc_step_arr bits hc x st.main).out) st.lcg4 h4).1) ∧
    (t642_fw_loop bits hc fc p (fc + num_obs)).2.2.2 =
      (List.range num_obs).flatMap (fun k => t642_round_outs bits hc p (fc + k)) ∧
    (t642_fw_loop bits hc fc p (fc + num_obs)).2.2.2.length = num_obs * 4 ∧
    (t642_sat_fw_loop bits hc fc B5 BA obs ps (fc + num_obs)).2 =
      (List.range num_obs).flatMap (fun k =>
        make_equal_bits ((t642_sat_round_outs bits hc B5 BA ps (fc + k)).getD 0 [])
            (obs.getD (k * 4 + 0) 0) ++
          make_equal_bits ((t642_sat_round_outs bits hc B5 BA ps (fc + k)).getD 1 [])
            (obs.getD (k * 4 + 1) 0) ++
          make_equal_bits ((t642_sat_round_outs bits hc B5 BA ps (fc + k)).getD 2 [])
            (obs.getD (k * 4 + 2) 0) ++
          make_equal_bits ((t642_sat_round_outs bits hc B5 BA ps (fc + k)).getD 3 [])
            (obs.getD (k * 4 + 3) 0)) := by
  refine ⟨fun x x2 st => rfl, fun x x2 st => ⟨_, rfl, rfl⟩, ?_, ?_, ?_⟩
  · rw [t642_fw_loop_eq]
    exact flatMap_range_if_ge fc num_obs _
  · rw [t642_fw_loop_eq]
    show ((List.range (fc + num_obs)).flatMap fun r =>
      if fc ≤ r then t642_round_outs bits hc p r else []).length = num_obs * 4
    rw [flatMap_range_if_ge fc num_obs _,
      length_flatMap_const (List.range num_obs)
        (fun k => t642_round_outs bits hc p (fc + k)) 4 (fun k _ => rfl),
      List.length_range]
  · rw [t642_sat_fw_loop_eq]
    show ((List.range (fc + num_obs)).flatMap fun r => if fc ≤ r then _ else []) = _
    rw [flatMap_range_if_ge fc num_obs _]
    apply flatMap_congr_left
    intro k _
    rw [Nat.add_sub_cancel_left]

theorem getD_set_ne {α : Type} (l : List α) (i j : Nat) (v d : α) (h : i ≠ j) :
    (l.set i v).getD j d = l.getD j d := by
  rw [List.getD_eq_getElem?_getD, List.getD_eq_getElem?_getD, List.getElem?_set_ne h]

theorem getD_set_self {α : Type} (l : List α) (i : Nat) (v d : α) (h : i < l.length) :
    (l.set i v).getD i d = v := by
  rw [List.getD_eq_getElem?_getD, List.getElem?_set_self h]
  rfl

/-- C10: the four firewall cores share the single 5-element array `h2`;
at round counter `x2`, core `k+1` (for `k = 0..3`) reads the value of
element `(x2+k) % 5` as seen at its turn and writes its updated hash word
back to the same element; within one round the four touched elements are
pairwise distinct, untouched elements are unchanged, and the element core
1 writes at round `x2` is exactly the element core 2 reads and rewrites at
round `x2 + 4`. -/
theorem claim_C10_firewall_shared_array (bits hc x x2 : Nat) (st : T642Calc)
    (hlen : st.h2.length = 5) :
    (∀ k k', k < 4 → k' < 4 → k ≠ k' → (x2 + k) % 5 ≠ (x2 + k') % 5) ∧
    ((t642_round bits hc x x2 st).1.h2.getD ((x2 + 0) % 5) 0 =
        (prvhash_core_calc bits st.seed1 st.lcg1
          (st.h2.getD ((x2 + 0) % 5) 0)).2.2.1 ∧
      (t642_round bits hc x x2 st).1.h2.getD ((x2 + 1) % 5) 0 =
        (prvhash_core_calc bits st.seed2 st.lcg2
          (st.h2.getD ((x2 + 1) % 5) 0)).2.2.1 ∧
      (t642_round bits hc x x2 st).1.h2.getD ((x2 + 2) % 5) 0 =
        (prvhash_core_calc bits st.seed3 st.lcg3
          (st.h2.getD ((x2 + 2) % 5) 0)).2.2.1 ∧
      (t642_round bits hc x x2 st).1.h2.getD ((x2 + 3) % 5) 0 =
        (prvhash_core_calc bits
          (st.seed4 ^^^ (calc_step_arr bits hc x st.main).out) st.lcg4
          (st.h2.getD ((x2 + 3) % 5) 0)).2.2.1) ∧
    (∀ j, j < 5 → (∀ k, k < 4 → j ≠ (x2 + k) % 5) →
      (t642_round bits hc x x2 st).1.h2.getD j 0 = st.h2.getD j 0) ∧
    (x2 + 0) % 5 = ((x2 + 4) + 1) % 5 := by
  have hd : ∀ k k', k < 4 → k' < 4 → k ≠ k' → (x2 + k) % 5 ≠ (x2 + k') % 5 := by
    intro k k' hk hk' hne
    omega
  have h01 : (x2 + 0) % 5 ≠ (x2 + 1) % 5 := hd 0 1 (by omega) (by omega) (by omega)
  have h02 : (x2 + 0) % 5 ≠ (x2 + 2) % 5 := hd 0 2 (by omega) (by omega) (by omega)
  have h03 : (x2 + 0) % 5 ≠ (x2 + 3) % 5 := hd 0 3 (by omega) (by omega) (by omega)
  have h12 : (x2 + 1) % 5 ≠ (x2 + 2) % 5 := hd 1 2 (by omega) (by omega) (by omega)
  have h13 : (x2 + 1) % 5 ≠ (x2 + 3) % 5 := hd 1 3 (by omega) (by omega) (by omega)
  have h23 : (x2 + 2) % 5 ≠ (x2 + 3) % 5 := hd 2 3 (by omega) (by omega) (by omega)
  have hb : ∀ k, (x2 + k) % 5 < 5 := fun k => Nat.mod_lt _ (by norm_num)
  have hread1 : ∀ v0, (st.h2.set ((x2 + 0) % 5) v0).getD ((x2 + 1) % 5) 0 =
      st.h2.getD ((x2 + 1) % 5) 0 := fun v0 => getD_set_ne _ _ _ _ _ h01
  have hread2 : ∀ v0 v1, ((st.h2.set ((x2 + 0) % 5) v0).set ((x2 + 1) % 5) v1).getD
      ((x2 + 2) % 5) 0 = st.h2.getD ((x2 + 2) % 5) 0 := fun v0 v1 => by
    rw [getD_set_ne _ _ _ _ _ h12, getD_set_ne _ _ _ _ _ h02]
  have hread3 : ∀ v0 v1 v2, (((st.h2.set ((x2 + 0) % 5) v0).set ((x2 + 1) % 5) v1).set
      ((x2 + 2) % 5) v2).getD ((x2 + 3) % 5) 0 = st.h2.getD ((x2 + 3) % 5) 0 :=
    fun v0 v1 v2 => by
    rw [getD_set_ne _ _ _ _ _ h23, getD_set_ne _ _ _ _ _ h13, getD_set_ne _ _ _ _ _ h03]
  refine ⟨hd, ⟨?_, ?_, ?_, ?_⟩, ?_, by omega⟩
  · show ((((st.h2.set ((x2 + 0) % 5) _).set ((x2 + 1) % 5) _).set
      ((x2 + 2) % 5) _).set ((x2 + 3) % 5) _).getD ((x2 + 0) % 5) 0 = _
    rw [getD_set_ne _ _ _ _ _ (Ne.symm h03), getD_set_ne _ _ _ _ _ (Ne.symm h02),
      getD_set_ne _ _ _ _ _ (Ne.symm h01),
      getD_set_self _ _ _ _ (by rw [hlen]; exact hb 0)]
  · show ((((st.h2.set ((x2 + 0) % 5) _).set ((x2 + 1) % 5) _).set
      ((x2 + 2) % 5) _).set ((x2 + 3) % 5) _).getD ((x2 + 1) % 5) 0 = _
    rw [getD_set_ne _ _ _ _ _ (Ne.symm h13), getD_set_ne _ _ _ _ _ (Ne.symm h12),
      getD_set_self _ _ _ _ (by simp only [List.length_set, hlen]; exact hb 1),
      hread1]
  · show ((((st.h2.set ((x2 + 0) % 5) _).set ((x2 + 1) % 5) _).set
      ((x2 + 2) % 5) _).set ((x2 + 3) % 5) _).getD ((x2 + 2) % 5) 0 = _
    rw [getD_set_ne _ _ _ _ _ (Ne.symm h23),
      getD_set_self _ _ _ _ (by simp only [List.length_set, hlen]; exact hb 2),
      hread2]
  · show ((((st.h2.set ((x2 + 0) % 5) _).set ((x2 + 1) % 5) _).set
      ((x2 + 2) % 5) _).set ((x2 + 3) % 5) _).getD ((x2 + 3) % 5) 0 = _
    rw [getD_set_self _ _ _ _ (by simp only [List.length_set, hlen]; exact hb 3),
      hread3]
  · intro j hj hnot
    show ((((st.h2.set ((x2 + 0) % 5) _).set ((x2 + 1) % 5) _).set
      ((x2 + 2) % 5) _).set ((x2 + 3) % 5) _).getD j 0 = _
    rw [getD_set_ne _ _ _ _ _ (Ne.symm (hnot 3 (by omega))),
      getD_set_ne _ _ _ _ _ (Ne.symm (hnot 2 (by omega))),
      getD_set_ne _ _ _ _ _ (Ne.symm (hnot 1 (by omega))),
      getD_set_ne _ _ _ _ _ (Ne.symm (hnot 0 (by omega)))]

/-- Witness for C10 at a concrete state with a 5-element shared array. -/
theorem claim_C10_firewall_shared_array_witness :
    (∀ k k', k < 4 → k' < 4 → k ≠ k' → (3 + k) % 5 ≠ (3 + k') % 5) ∧
    ((t642_round 2 1 0 3 ⟨⟨1, 2, [3], 0⟩, 1, 2, 3, 4, 5, 6, 7, 8, [10, 11, 12, 13, 14]⟩).1.h2.getD ((3 + 0) % 5) 0 =
        (prvhash_core_calc 2 1 2
          ([10, 11, 12, 13, 14].getD ((3 + 0) % 5) 0)).2.2.1 ∧
      (t642_round 2 1 0 3 ⟨⟨1, 2, [3], 0⟩, 1, 2, 3, 4, 5, 6, 7, 8, [10, 11, 12, 13, 14]⟩).1.h2.getD ((3 + 1) % 5) 0 =
        (prvhash_core_calc 2 3 4
          ([10, 11, 12, 13, 14].getD ((3 + 1) % 5) 0)).2.2.1 ∧
      (t642_round 2 1 0 3 ⟨⟨1, 2, [3], 0⟩, 1, 2, 3, 4, 5, 6, 7, 8, [10, 11, 12, 13, 14]⟩).1.h2.getD ((3 + 2) % 5) 0 =
        (prvhash_core_calc 2 5 6
          ([10, 11, 12, 13, 14].getD ((3 + 2) % 5) 0)).2.2.1 ∧
      (t642_round 2 1 0 3 ⟨⟨1, 2, [3], 0⟩, 1, 2, 3, 4, 5, 6, 7, 8, [10, 11, 12, 13, 14]⟩).1.h2.getD ((3 + 3) % 5) 0 =
        (prvhash_core_calc 2
          (7 ^^^ (calc_step_arr 2 1 0 ⟨1, 2, [3], 0⟩).out) 8
          ([10, 11, 12, 13, 14].getD ((3 + 3) % 5) 0)).2.2.1) ∧
    (∀ j, j < 5 → (∀ k, k < 4 → j ≠ (3 + k) % 5) →
      (t642_round 2 1 0 3 ⟨⟨1, 2, [3], 0⟩, 1, 2, 3, 4, 5, 6, 7, 8, [10, 11, 12, 13, 14]⟩).1.h2.getD j 0 =
        [10, 11, 12, 13, 14].getD j 0) ∧
    (3 + 0) % 5 = ((3 + 4) + 1) % 5 :=
  claim_C10_firewall_shared_array 2 1 0 3
    ⟨⟨1, 2, [3], 0⟩, 1, 2, 3, 4, 5, 6, 7, 8, [10, 11, 12, 13, 14]⟩ (by decide)

/-- C6 (amended): the hash-array element used by successive step calls
advances by one modulo `hc` after every call, except the five initial
warm-up calls of either variant, which all use the counter value 0; and
Variant B's four firewall cores share a 5-element array whose round
counter advances once per round of four calls, the four calls of round `r`
using the distinct elements `(r+0..3) % 5`. -/
theorem claim_C6_amended_roundrobin (bits hci hc num_obs ivlen fc seed_i lcg_i : Nat)
    (hcv iv : List Nat) :
    gradilac_trace bits hci hc num_obs seed_i lcg_i hcv =
      List.replicate 5 (0 % hc) ++
        (List.range (hc + 1 + 2 * num_obs)).map (fun t => t % hc) ∧
    t642_main_trace bits hci hc ivlen fc num_obs seed_i hcv iv =
      List.replicate 5 (0 % hc) ++
        (List.range (hc + (hc + 1) + (fc + num_obs))).map (fun t => t % hc) ∧
    t642_h2_trace bits hci hc ivlen fc num_obs seed_i hcv iv =
      (List.range (fc + num_obs)).flatMap (fun r =>
        [(r + 0) % 5, (r + 1) % 5, (r + 2) % 5, (r + 3) % 5]) := by
  refine ⟨?_, ?_, ?_⟩
  · rw [gradilac_trace, gradilac_run_eq]
  · rw [t642_main_trace, t642_calc]
    simp only [gradilac_loop1_eq, t642_iv_loop_eq, gradilac_loop2_eq,
      t642_fw_loop_eq, Nat.zero_add]
    rw [List.range_add (hc + (hc + 1)) (fc + num_obs), List.range_add hc (hc + 1),
      List.map_append, List.map_append, List.map_map, List.map_map]
    simp only [List.append_assoc]
    rfl
  · rw [t642_h2_trace, t642_calc]
    simp only [gradilac_loop1_eq, t642_iv_loop_eq, gradilac_loop2_eq,
      t642_fw_loop_eq, Nat.zero_add]

theorem inject_mirror (b2 : Nat) (v : Nat) (c : CalcState) (s : SatState)
    (hm : mirrors c s) (hwf : satWF (2 * b2) s) :
    mirrors
      ⟨c.seed ^^^ (v &&& ((1 <<< (2 * b2)) - 1)),
        c.lcg ^^^ (v &&& ((1 <<< (2 * b2)) - 1)), c.harr, c.out⟩
      ⟨xor s.seed (inibits (2 * b2) v), xor s.lcg (inibits (2 * b2) v),
        s.harr, s.out⟩ ∧
    satWF (2 * b2)
      ⟨xor s.seed (inibits (2 * b2) v), xor s.lcg (inibits (2 * b2) v),
        s.harr, s.out⟩ := by
  obtain ⟨hm1, hm2, hm3, hm4⟩ := hm
  obtain ⟨hw1, hw2, hw3⟩ := hwf
  have hxs : decode (xor s.seed (inibits (2 * b2) v)) = decode s.seed ^^^ (v % 2 ^ (2 * b2)) := by
    rw [decode_xor _ _ (by rw [hw1, inibits_length]), decode_inibits]
  have hxl : decode (xor s.lcg (inibits (2 * b2) v)) = decode s.lcg ^^^ (v % 2 ^ (2 * b2)) := by
    rw [decode_xor _ _ (by rw [hw2, inibits_length]), decode_inibits]
  refine ⟨⟨?_, ?_, hm3, hm4⟩, ⟨?_, ?_, hw3⟩⟩
  · show c.seed ^^^ (v &&& ((1 <<< (2 * b2)) - 1)) = _
    rw [hxs, hm1, mask_eq_mod]
  · show c.lcg ^^^ (v &&& ((1 <<< (2 * b2)) - 1)) = _
    rw [hxl, hm2, mask_eq_mod]
  · show (xor s.seed (inibits (2 * b2) v)).length = 2 * b2
    rw [xor_length, hw1, inibits_length, Nat.min_self]
  · show (xor s.lcg (inibits (2 * b2) v)).length = 2 * b2
    rw [xor_length, hw2, inibits_length, Nat.min_self]

theorem t642_iv_loop_mirror (b2 hc ivlen : Nat) (iv : List Nat) (hb : 0 < b2)
    (hhc : 0 < hc) (c : CalcState) (s : SatState) (hm : mirrors c s)
    (hwf : satWF (2 * b2) s) (hlen : s.harr.length = hc) (x0 n : Nat) :
    mirrors (t642_iv_loop (2 * b2) hc ivlen iv (c, x0, 0) n).1.1
      (t642_sat_iv_loop (2 * b2) hc ivlen iv (inibits (2 * b2) (rawbits5 b2))
        (inibits (2 * b2) (rawbitsA b2)) (s, x0, 0) n).1 ∧
    satWF (2 * b2)
      (t642_sat_iv_loop (2 * b2) hc ivlen iv (inibits (2 * b2) (rawbits5 b2))
        (inibits (2 * b2) (rawbitsA b2)) (s, x0, 0) n).1 ∧
    (t642_sat_iv_loop (2 * b2) hc ivlen iv (inibits (2 * b2) (rawbits5 b2))
        (inibits (2 * b2) (rawbitsA b2)) (s, x0, 0) n).1.harr.length = hc ∧
    (t642_sat_iv_loop (2 * b2) hc ivlen iv (inibits (2 * b2) (rawbits5 b2))
        (inibits (2 * b2) (rawbitsA b2)) (s, x0, 0) n).2.1 =
      (t642_iv_loop (2 * b2) hc ivlen iv (c, x0, 0) n).1.2.1 ∧
    (t642_sat_iv_loop (2 * b2) hc ivlen iv (inibits (2 * b2) (rawbits5 b2))
        (inibits (2 * b2) (rawbitsA b2)) (s, x0, 0) n).2.2 =
      (t642_iv_loop (2 * b2) hc ivlen iv (c, x0, 0) n).1.2.2 := by
  induction n with
  | zero => exact ⟨hm, hwf, hlen, rfl, rfl⟩
  | succ n ih =>
    obtain ⟨ihm, ihwf, ihlen, ihx, ihiv⟩ := ih
    rw [t642_iv_loop, t642_sat_iv_loop, ihx, ihiv]
    by_cases hcond : ((n &&& 1) = 1 ∧
        (t642_iv_loop (2 * b2) hc ivlen iv (c, x0, 0) n).1.2.2 < ivlen)
    · rw [if_pos hcond, if_pos hcond]
      obtain ⟨hinjm, hinjwf⟩ := inject_mirror b2
        (iv.getD (t642_iv_loop (2 * b2) hc ivlen iv (c, x0, 0) n).1.2.2 0)
        _ _ ihm ihwf
      have hstep := step_arr_mirror b2 hc
        (t642_iv_loop (2 * b2) hc ivlen iv (c, x0, 0) n).1.2.1 hb hhc
        _ _ hinjm hinjwf (by exact ihlen)
      exact ⟨hstep.1, hstep.2.1, hstep.2.2, rfl, rfl⟩
    · rw [if_neg hcond, if_neg hcond]
      have hstep := step_arr_mirror b2 hc
        (t642_iv_loop (2 * b2) hc ivlen iv (c, x0, 0) n).1.2.1 hb hhc
        _ _ ihm ihwf ihlen
      exact ⟨hstep.1, hstep.2.1, hstep.2.2, rfl, rfl⟩

/-- C7: in Variant B's `hc`-step initialization pass, nonce word `j` is
XORed into both `seed` and `lcg` immediately before the step with in-pass
index `2j+1` (odd indices only), words consumed in order, injection
stopping once all `ivlen` words are consumed — the pass equals the
spec-shaped `t642_iv_spec_run`, and after `n` calls exactly
`min (n/2) ivlen` words are consumed; the symbolic pass with the same
nonce constants performs the identical injection, so its decoded state
mirrors the concrete state and its counters agree. -/
theorem claim_C7_nonce_injection (b2 hc ivlen : Nat) (iv : List Nat) (hb : 0 < b2)
    (hhc : 0 < hc) (c : CalcState) (s : SatState) (hm : mirrors c s)
    (hwf : satWF (2 * b2) s) (hlen : s.harr.length = hc) (x0 n : Nat) :
    t642_iv_loop (2 * b2) hc ivlen iv (c, x0, 0) n =
      ((t642_iv_spec_run (2 * b2) hc ivlen iv c x0 n, x0 + n, min (n / 2) ivlen),
        (List.range n).map (fun t => (x0 + t) % hc)) ∧
    mirrors (t642_iv_loop (2 * b2) hc ivlen iv (c, x0, 0) n).1.1
      (t642_sat_iv_loop (2 * b2) hc ivlen iv (inibits (2 * b2) (rawbits5 b2))
        (inibits (2 * b2) (rawbitsA b2)) (s, x0, 0) n).1 ∧
    (t642_sat_iv_loop (2 * b2) hc ivlen iv (inibits (2 * b2) (rawbits5 b2))
        (inibits (2 * b2) (rawbitsA b2)) (s, x0, 0) n).2.1 = x0 + n ∧
    (t642_sat_iv_loop (2 * b2) hc ivlen iv (inibits (2 * b2) (rawbits5 b2))
        (inibits (2 * b2) (rawbitsA b2)) (s, x0, 0) n).2.2 = min (n / 2) ivlen := by
  obtain ⟨hmir, _, _, hx, hiv⟩ :=
    t642_iv_loop_mirror b2 hc ivlen iv hb hhc c s hm hwf hlen x0 n
  refine ⟨t642_iv_loop_eq _ _ _ _ _ _ _, hmir, ?_, ?_⟩
  · rw [hx, t642_iv_loop_eq]
  · rw [hiv, t642_iv_loop_eq]

/-- Witness for C7 at width 2, one hash element, one nonce word, two
initialization calls. -/
theorem claim_C7_nonce_injection_witness :
    t642_iv_loop (2 * 1) 1 1 [2] (⟨1, 2, [3], 0⟩, 0, 0) 2 =
      ((t642_iv_spec_run (2 * 1) 1 1 [2] ⟨1, 2, [3], 0⟩ 0 2, 0 + 2, min (2 / 2) 1),
        (List.range 2).map (fun t => (0 + t) % 1)) ∧
    mirrors (t642_iv_loop (2 * 1) 1 1 [2] (⟨1, 2, [3], 0⟩, 0, 0) 2).1.1
      (t642_sat_iv_loop (2 * 1) 1 1 [2] (inibits (2 * 1) (rawbits5 1))
        (inibits (2 * 1) (rawbitsA 1))
        (⟨inibits 2 1, inibits 2 2, [inibits 2 3], []⟩, 0, 0) 2).1 ∧
    (t642_sat_iv_loop (2 * 1) 1 1 [2] (inibits (2 * 1) (rawbits5 1))
        (inibits (2 * 1) (rawbitsA 1))
        (⟨inibits 2 1, inibits 2 2, [inibits 2 3], []⟩, 0, 0) 2).2.1 = 0 + 2 ∧
    (t642_sat_iv_loop (2 * 1) 1 1 [2] (inibits (2 * 1) (rawbits5 1))
        (inibits (2 * 1) (rawbitsA 1))
        (⟨inibits 2 1, inibits 2 2, [inibits 2 3], []⟩, 0, 0) 2).2.2 = min (2 / 2) 1 :=
  claim_C7_nonce_injection 1 1 1 [2] (by decide) (by decide)
    ⟨1, 2, [3], 0⟩ ⟨inibits 2 1, inibits 2 2, [inibits 2 3], []⟩
    (by constructor <;> decide)
    (by refine ⟨by decide, by decide, ?_⟩
        intro l hl
        simp only [List.mem_singleton] at hl
        rw [hl, inibits_length])
    (by decide) 0 2

example : rawbits5 3 = 21 := by decide
example : rawbitsA 3 = 42 := by decide
example :
    decode (prvhash_core_sat 6 (inibits 6 (rawbits5 3)) (inibits 6 (rawbitsA 3))
      (inibits 6 4) (inibits 6 5) (inibits 6 13)).1 =
    (prvhash_core_calc 6 4 5 13).1 := by decide
example :
    decode (prvhash_core_sat 6 (inibits 6 (rawbits5 3)) (inibits 6 (rawbitsA 3))
      (inibits 6 4) (inibits 6 5) (inibits 6 13)).2.2.2 =
    (prvhash_core_calc 6 4 5 13).2.2.2 := by decide

end PrvSat
